import Mathlib

/-!
# CBForest map/reduce index: a shallow embedding of `MapReduceIndex.cc`

The C++ classes `MapReduceIndex` and `MapReduceIndexer` are embedded as pure
state-passing functions.  Member functions take the object state and return
the new one; `Option.none` stands for a C++ exception or a null dereference.
Collaborators that live in other translation units (the collatable codec, the
key/value store, the row writer) are either parameters or small models that
say so in their doc comment.
-/

namespace forestdb

/-! ## Constants of `MapReduceIndex.cc` -/

/-- Oldest persisted format this code still accepts (`static int64_t kMinFormatVersion = 1`). -/
def kMinFormatVersion : Int := 1

/-- Format written by `saveState` (`static int64_t kCurFormatVersion = 1`). -/
def kCurFormatVersion : Int := 1

/-- Largest value of the C type `uint64_t`. -/
def UINT64_MAX : Nat := 2 ^ 64 - 1

/-! Sequence numbers (`sequence`, a `uint64_t`) and `_rowCount` are natural numbers;
arithmetic on them is reduced modulo `2 ^ 64` where the C++ computes. -/

/-- Reduction of an arithmetic result to the range of `uint64_t`. -/
def wrap64 (n : Nat) : Nat := n % 2 ^ 64

/-- Conversion of an `int64_t` to `uint64_t`, as in `_rowCount = (uint64_t)reader.readInt()`. -/
def toUInt64 (n : Int) : Nat := (n % (2 ^ 64 : Int)).toNat

/-- Conversion of an `int64_t` to `int`, as in `_indexType = (int)reader.readInt()`. -/
def toInt32 (n : Int) : Int := (n + 2 ^ 31) % (2 ^ 32 : Int) - 2 ^ 31

/-! ## Collatable codec -/

/-- Modelled from the spec: the type tags of the collatable codec (`Collatable.hh` is not
among the sources).  The order null, boolean, number, string, array is the spec's
type-tag precedence; `kEndSequence` and `kArray` are the two tags `readState` names. -/
inductive Tag where
  | kEndSequence
  | kNull
  | kBoolean
  | kNumber
  | kString
  | kArray
deriving DecidableEq, Repr

/-- Modelled from the spec: one encoded value of the collatable codec.  `beginArray` is
the array-opening tag and `endSequence` the tag that closes an array. -/
inductive Item where
  | null
  | bool (b : Bool)
  | num (n : Int)
  | str (s : String)
  | beginArray
  | endSequence
deriving DecidableEq, Repr

/-- Tag of one encoded value. -/
def Item.tag : Item → Tag
  | .null => .kNull
  | .bool _ => .kBoolean
  | .num _ => .kNumber
  | .str _ => .kString
  | .beginArray => .kArray
  | .endSequence => .kEndSequence

/-- Modelled from the spec: a `Collatable` is the sequence of values appended to it so far;
`operator<<` appends one value and nothing else. -/
abbrev Collatable := List Item

/-- Member `Collatable::addNull`. -/
def Collatable.addNull (c : Collatable) : Collatable := c ++ [Item.null]

/-- Stream operator `operator<<` for an integer. -/
def Collatable.addInt (c : Collatable) (n : Int) : Collatable := c ++ [Item.num n]

/-- Stream operator `operator<<` for a string. -/
def Collatable.addString (c : Collatable) (s : String) : Collatable := c ++ [Item.str s]

/-- Modelled from the spec: a `CollatableReader` is the data not yet consumed. -/
abbrev CollatableReader := List Item

/-- Reader `peekTag`: the tag of the next value, `kEndSequence` when no data is left. -/
def CollatableReader.peekTag : CollatableReader → Tag
  | [] => .kEndSequence
  | i :: _ => i.tag

/-- Reader `beginArray`: consumes an array-opening tag, fails on anything else. -/
def CollatableReader.beginArray : CollatableReader → Option CollatableReader
  | Item.beginArray :: r => some r
  | _ => none

/-- Reader `readInt`: consumes a number, fails (throws) on anything else. -/
def CollatableReader.readInt : CollatableReader → Option (Int × CollatableReader)
  | Item.num n :: r => some (n, r)
  | _ => none

/-- Reader `readString`: consumes a string, fails (throws) on anything else. -/
def CollatableReader.readString : CollatableReader → Option (String × CollatableReader)
  | Item.str s :: r => some (s, r)
  | _ => none

/-! ## Documents, stores, map functions -/

/-- A document of the source store. -/
structure Document where
  key : String
  sequence : Nat
  deleted : Bool
  body : String
deriving DecidableEq, Repr

/-- Adapter handed to the map function; wraps the source document. -/
structure Mappable where
  document : Document
deriving DecidableEq, Repr

/-- Modelled from the spec: the source store, read-only here.  `docs` lists the current
documents (tombstones included) in the order a by-sequence enumeration yields them. -/
structure SourceStore where
  docs : List Document
  lastSequence : Nat
deriving DecidableEq, Repr

/-- Options of `DocEnumerator`; `kDefault` skips deleted documents. -/
structure DocEnumerator.Options where
  includeDeleted : Bool
deriving DecidableEq, Repr

/-- Default enumeration options. -/
def DocEnumerator.Options.kDefault : DocEnumerator.Options := { includeDeleted := false }

/-- Modelled from the spec: `enumerateDocuments(fromSequence, toSequence, options)`, the documents
whose sequence lies in the closed range, in store order. -/
def DocEnumerator.enumerate (store : SourceStore) (min max : Nat)
    (options : DocEnumerator.Options) : List Document :=
  store.docs.filter fun d =>
    decide (min ≤ d.sequence) && decide (d.sequence ≤ max) && (options.includeDeleted || !d.deleted)

/-- One row of an index. -/
structure Row where
  key : Collatable
  docID : String
  sequence : Nat
  value : Collatable
deriving DecidableEq, Repr

/-- Modelled from the spec: the index's own key/value store.  `rows` are the rows put there by
the row writer, `state` is the body of the record under the reserved null key (absent when
`none`), `lastSequence` is the store's last sequence. -/
structure KeyStore where
  rows : List Row
  state : Option Collatable
  lastSequence : Nat
deriving DecidableEq, Repr

/-- Modelled from the spec: `get(key)` for the reserved key; an absent record has an empty body. -/
def KeyStore.getState (s : KeyStore) : Collatable := s.state.getD []

/-- Modelled from the spec: `set(key, value) -> newSequence` for the reserved key. -/
def KeyStore.setState (s : KeyStore) (body : Collatable) : Nat × KeyStore :=
  (wrap64 (s.lastSequence + 1),
   { s with state := some body, lastSequence := wrap64 (s.lastSequence + 1) })

/-- Modelled from the spec: `erase()` empties the store, rows and reserved record alike. -/
def KeyStore.erase (_s : KeyStore) : KeyStore := { rows := [], state := none, lastSequence := 0 }

/-- The emitter handed to a map function: two parallel vectors. -/
structure emitter where
  keys : List Collatable := []
  values : List Collatable := []
deriving DecidableEq, Repr

/-- The call operator of `emitter`: `keys.push_back(key); values.push_back(value);`. -/
def emitter.call (e : emitter) (key value : Collatable) : emitter :=
  { keys := e.keys ++ [key], values := e.values ++ [value] }

/-- A map function, given by the sequence of `emit(key, value)` calls it makes on a document. -/
abbrev MapFn := Mappable → List (Collatable × Collatable)

/-- Running a map function against an emitter: its emit calls, in order. -/
def MapFn.run (map : MapFn) (mappable : Mappable) (emit : emitter) : emitter :=
  (map mappable).foldl (fun e kv => e.call kv.1 kv.2) emit

/-- The row writer `IndexWriter::update(docKey, docSequence, keys, values, rowCount)`, taken as a
parameter: it returns whether rows changed, the store after the write and the adjusted row
count (the C++ passes `rowCount` by reference). -/
abbrev RowWriter :=
  KeyStore → String → Nat → List Collatable → List Collatable → Nat → Bool × KeyStore × Nat

/-- Calls an index makes on its collaborators, logged in call order. -/
inductive Call where
  | map (doc : Document)
  | update (docKey : String) (docSequence : Nat) (keys values : List Collatable)
  | erase
  | set (body : Collatable)
deriving DecidableEq, Repr

/-! ## `MapReduceIndex` -/

/-- Data members of `MapReduceIndex`, the index's own store (its `KeyStore` base)
and the log of collaborator calls. -/
structure MapReduceIndex where
  store : KeyStore
  _sourceDatabase : SourceStore
  _map : Option MapFn
  _indexType : Int
  _mapVersion : String
  _lastMapVersion : String
  _lastSequenceIndexed : Nat
  _lastSequenceChangedAt : Nat
  _stateReadAt : Nat
  _rowCount : Nat
  calls : List Call

namespace MapReduceIndex

/-- Member `deleted`: resets the cached metadata, touches no row. -/
def deleted (self : MapReduceIndex) : MapReduceIndex :=
  { self with
    _lastSequenceIndexed := 0
    _lastSequenceChangedAt := 0
    _lastMapVersion := ""
    _stateReadAt := 0
    _rowCount := 0 }

/-- The body of `readState` inside `if (reader.peekTag() == kArray)`. -/
def decodeState (self : MapReduceIndex) (reader : CollatableReader) : Option MapReduceIndex := do
  let reader ← reader.beginArray
  let (a, reader) ← reader.readInt
  let self := { self with _lastSequenceIndexed := toUInt64 a }
  let (b, reader) ← reader.readInt
  let self := { self with _lastSequenceChangedAt := toUInt64 b }
  let (v, reader) ← reader.readString
  let self := { self with _lastMapVersion := v }
  let (t, reader) ← reader.readInt
  let self := { self with _indexType := toInt32 t }
  let (r, reader) ← reader.readInt
  let self := { self with _rowCount := toUInt64 r }
  if reader.peekTag = Tag.kEndSequence then
    -- Obsolete index version
    some { self.deleted with _indexType := 0 }
  else do
    let (version, _) ← reader.readInt
    if version < kMinFormatVersion then
      some { self.deleted with _indexType := 0 }
    else
      some self

/-- Member `readState`. -/
def readState (self : MapReduceIndex) : Option MapReduceIndex :=
  let curIndexSeq := self.store.lastSequence
  if self._stateReadAt ≠ curIndexSeq then do
    -- the record under the key `Collatable.addNull []`
    let reader : CollatableReader := self.store.getState
    let self ← (if reader.peekTag = Tag.kArray then decodeState self reader else some self)
    some { self with _stateReadAt := curIndexSeq }
  else
    some self

/-- The constructor's member initialisers: `_map(NULL)`, `_indexType(0)`, all counters 0. -/
def init (store : KeyStore) (sourceStore : SourceStore) : MapReduceIndex :=
  { store := store
    _sourceDatabase := sourceStore
    _map := none
    _indexType := 0
    _mapVersion := ""
    _lastMapVersion := ""
    _lastSequenceIndexed := 0
    _lastSequenceChangedAt := 0
    _stateReadAt := 0
    _rowCount := 0
    calls := [] }

/-- The constructor: member initialisers, then `readState()`. -/
def new (store : KeyStore) (sourceStore : SourceStore) : Option MapReduceIndex :=
  readState (init store sourceStore)

/-- Member `saveState`. -/
def saveState (self : MapReduceIndex) : MapReduceIndex :=
  let self := { self with _lastMapVersion := self._mapVersion }
  let state : Collatable :=
    ([] : Collatable)
      |> (Collatable.addInt · self._lastSequenceIndexed)
      |> (Collatable.addInt · self._lastSequenceChangedAt)
      |> (Collatable.addString · self._lastMapVersion)
      |> (Collatable.addInt · self._indexType)
      |> (Collatable.addInt · self._rowCount)
      |> (Collatable.addInt · kCurFormatVersion)
  let r := self.store.setState state
  { self with store := r.2, _stateReadAt := r.1, calls := self.calls ++ [Call.set state] }

/-- Accessor `lastSequenceIndexed`. -/
def lastSequenceIndexed (self : MapReduceIndex) : Option (Nat × MapReduceIndex) :=
  (readState self).map fun s => (s._lastSequenceIndexed, s)

/-- Accessor `lastSequenceChangedAt`. -/
def lastSequenceChangedAt (self : MapReduceIndex) : Option (Nat × MapReduceIndex) :=
  (readState self).map fun s => (s._lastSequenceChangedAt, s)

/-- Accessor `rowCount`. -/
def rowCount (self : MapReduceIndex) : Option (Nat × MapReduceIndex) :=
  (readState self).map fun s => (s._rowCount, s)

/-- Accessor `sourceStore`. -/
def sourceStore (self : MapReduceIndex) : SourceStore := self._sourceDatabase

/-- Member `setup`. -/
def setup (self : MapReduceIndex) (indexType : Int) (map : Option MapFn) (mapVersion : String) :
    Option MapReduceIndex := do
  let self ← readState self
  if indexType ≠ self._indexType ∨ mapVersion ≠ self._lastMapVersion then
    let self := { self with _map := map, _indexType := indexType, _mapVersion := mapVersion }
    let self :=
      if self._lastSequenceIndexed > 0 then
        { self with store := self.store.erase, calls := self.calls ++ [Call.erase] }
      else self
    some { self with
      _lastSequenceIndexed := 0
      _lastSequenceChangedAt := 0
      _rowCount := 0
      _stateReadAt := 0 }
  else
    some self

/-- Member `erase`. -/
def erase (self : MapReduceIndex) : MapReduceIndex :=
  { self with
    store := self.store.erase
    calls := self.calls ++ [Call.erase]
    _lastSequenceIndexed := 0
    _lastSequenceChangedAt := 0
    _rowCount := 0
    _stateReadAt := 0 }

/-- The statement `(*_map)(mappable, emit)`: fails when `_map` is null. -/
def callMap (self : MapReduceIndex) (mappable : Mappable) (emit : emitter) :
    Option (emitter × MapReduceIndex) :=
  match self._map with
  | none => none
  | some map =>
    some (map.run mappable emit, { self with calls := self.calls ++ [Call.map mappable.document] })

/-- Member `updateDocInIndex`. -/
def updateDocInIndex (writer : RowWriter) (self : MapReduceIndex) (mappable : Mappable) :
    Option (Bool × MapReduceIndex) :=
  let doc := mappable.document
  if doc.sequence ≤ self._lastSequenceIndexed then
    some (false, self)
  else do
    let emit : emitter := {}
    let (emit, self) ← (if !doc.deleted then callMap self mappable emit else some (emit, self))
    let self := { self with _lastSequenceIndexed := doc.sequence }
    let r := writer self.store doc.key doc.sequence emit.keys emit.values self._rowCount
    let self :=
      { self with
        store := r.2.1
        _rowCount := r.2.2
        calls := self.calls ++ [Call.update doc.key doc.sequence emit.keys emit.values] }
    if r.1 then
      some (true, { self with _lastSequenceChangedAt := self._lastSequenceIndexed })
    else
      some (false, self)

end MapReduceIndex

end forestdb

namespace forestdb

/-! ## `MapReduceIndexer` -/

/-- Data members of `MapReduceIndexer`.  `_indexes` holds the states of the managed index
objects (the C++ vector holds pointers to distinct objects), `_triggerIndex` is the position
of the trigger index in `_indexes` (`none` for `NULL`), and `added` logs the documents passed
to `addDocument`, in call order. -/
structure MapReduceIndexer where
  _indexes : List MapReduceIndex
  _triggerIndex : Option Nat
  _finished : Bool
  _lastSequences : List Nat
  added : List Document

/-- What the first loop of `run` leaves behind: whether it hit `return false` for the trigger
index, the start sequence so far, the index objects and `_lastSequences`. -/
structure StartScan where
  aborted : Bool
  startSequence : Nat
  indexes : List MapReduceIndex
  lastSequences : List Nat

namespace MapReduceIndexer

/-- The constructor. -/
def new (indexes : List MapReduceIndex) : MapReduceIndexer :=
  { _indexes := indexes, _triggerIndex := none, _finished := false, _lastSequences := [],
    added := [] }

/-- The first loop of `run`, from position `i` on: reads each index's `lastSequenceIndexed()`,
lowers `startSequence` for an index that is behind, returns early for a caught-up trigger
index, and pushes the sequence on `_lastSequences`. -/
def findStartSequence (latestDbSequence : Nat) (triggerIndex : Option Nat) :
    Nat → List MapReduceIndex → Nat → List Nat → Option StartScan
  | _, [], startSequence, lastSequences =>
    some { aborted := false, startSequence := startSequence, indexes := [],
           lastSequences := lastSequences }
  | i, idx :: rest, startSequence, lastSequences =>
    match idx.lastSequenceIndexed with
    | none => none
    | some (lastSequence, idx) =>
      if lastSequence < latestDbSequence then
        (findStartSequence latestDbSequence triggerIndex (i + 1) rest
            (min startSequence (wrap64 (lastSequence + 1)))
            (lastSequences ++ [lastSequence])).map
          fun r => { r with indexes := idx :: r.indexes }
      else if triggerIndex = some i then
        -- The trigger index doesn't need to be updated, so abort
        some { aborted := true, startSequence := startSequence, indexes := idx :: rest,
               lastSequences := lastSequences }
      else
        (findStartSequence latestDbSequence triggerIndex (i + 1) rest startSequence
            (lastSequences ++ [lastSequence])).map
          fun r => { r with indexes := idx :: r.indexes }

/-- The loop of `addMappable`, `for (i = 0; i < n; ++i) updateDocInIndex(i, mappable)`: the
per-document update of every managed index, in order, return values dropped. -/
def addMappableLoop (writer : RowWriter) (mappable : Mappable) :
    List MapReduceIndex → Option (List MapReduceIndex)
  | [] => some []
  | idx :: rest =>
    match idx.updateDocInIndex writer mappable with
    | none => none
    | some (_, idx) =>
      match addMappableLoop writer mappable rest with
      | none => none
      | some rest => some (idx :: rest)

/-- Member `addMappable`. -/
def addMappable (writer : RowWriter) (self : MapReduceIndexer) (mappable : Mappable) :
    Option MapReduceIndexer :=
  (addMappableLoop writer mappable self._indexes).map fun indexes =>
    { self with _indexes := indexes }

/-- Member `addDocument`. -/
def addDocument (writer : RowWriter) (self : MapReduceIndexer) (doc : Document) :
    Option MapReduceIndexer :=
  let mappable : Mappable := { document := doc }
  addMappable writer { self with added := self.added ++ [doc] } mappable

/-- The enumeration loop of `run`: `addDocument(*e)` for every enumerated document. -/
def addDocuments (writer : RowWriter) :
    List Document → MapReduceIndexer → Option MapReduceIndexer
  | [], self => some self
  | doc :: docs, self =>
    match addDocument writer self doc with
    | none => none
    | some self => addDocuments writer docs self

/-- Member `run`.  `_indexes[0]` on an empty vector is undefined and modelled as failure. -/
def run (writer : RowWriter) (self : MapReduceIndexer) : Option (Bool × MapReduceIndexer) :=
  match self._indexes with
  | [] => none
  | first :: _ =>
    let sourceStore := first.sourceStore
    let latestDbSequence := sourceStore.lastSequence
    -- First find the minimum sequence that not all indexes have indexed yet.
    let startSequence := wrap64 (latestDbSequence + 1)
    match findStartSequence latestDbSequence self._triggerIndex 0 self._indexes startSequence
        self._lastSequences with
    | none => none
    | some scan =>
      let self := { self with _indexes := scan.indexes, _lastSequences := scan.lastSequences }
      if scan.aborted then
        some (false, self)
      else if scan.startSequence > latestDbSequence then
        some (false, self) -- no updating needed
      else
        -- Enumerate all the documents:
        let options := { DocEnumerator.Options.kDefault with includeDeleted := true }
        match addDocuments writer
            (DocEnumerator.enumerate sourceStore scan.startSequence UINT64_MAX options) self with
        | none => none
        | some self => some (true, { self with _finished := true })

/-- The destructor: saves every index's state when the run finished. -/
def finalize (self : MapReduceIndexer) : MapReduceIndexer :=
  if self._finished then
    { self with _indexes := self._indexes.map MapReduceIndex.saveState }
  else self

end MapReduceIndexer

/-! ## Specification helpers -/

/-- The per-document updates of one index over a list of documents, in order. -/
def updateDocs (writer : RowWriter) : List Document → MapReduceIndex → Option MapReduceIndex
  | [], idx => some idx
  | doc :: docs, idx =>
    match idx.updateDocInIndex writer { document := doc } with
    | none => none
    | some (_, idx) => updateDocs writer docs idx

/-- The collaborator calls one applied update makes for a document: for a tombstone one writer
call with empty lists, for a live document the map call and one writer call with the emitted
keys and values.  A live document cannot be applied without a map, so that case lists nothing. -/
def callsFor (map : Option MapFn) (doc : Document) : List Call :=
  if doc.deleted then
    [Call.update doc.key doc.sequence [] []]
  else
    match map with
    | some f =>
      [Call.map doc,
       Call.update doc.key doc.sequence ((f { document := doc }).map Prod.fst)
         ((f { document := doc }).map Prod.snd)]
    | none => []

/-- The start sequence the first loop of `run` computes from the indexes' sequences. -/
def startOf (latestDbSequence : Nat) (lastSequences : List Nat) (start : Nat) :
    Nat :=
  lastSequences.foldl
    (fun st s => if s < latestDbSequence then min st (wrap64 (s + 1)) else st) start

/-- The invariant `lastSequenceChangedAt ≤ lastSequenceIndexed` of the cached metadata. -/
def changedAtLeIndexed (s : MapReduceIndex) : Prop :=
  s._lastSequenceChangedAt ≤ s._lastSequenceIndexed

/-- Modelled from the spec: the contract of the row writer that the row-count invariant
assumes.  The writer leaves the reserved metadata record alone, and for some numbers of rows
added and removed it changes the number of stored rows and the passed row count by rows
added minus rows removed. -/
def RowWriter.AdjustsRowCount (w : RowWriter) : Prop :=
  ∀ (store : KeyStore) (docKey : String) (docSequence : Nat) (keys values : List Collatable)
    (rowCount : Nat),
    (w store docKey docSequence keys values rowCount).2.1.state = store.state ∧
    ∃ added removed : Nat, removed ≤ store.rows.length ∧
      (w store docKey docSequence keys values rowCount).2.1.rows.length =
        store.rows.length + added - removed ∧
      (w store docKey docSequence keys values rowCount).2.2 = rowCount + added - removed

/-- One call on an index: `setup`, `erase` or `updateDocInIndex`. -/
inductive IndexOp where
  | setup (indexType : Int) (map : Option MapFn) (mapVersion : String)
  | erase
  | updateDocInIndex (mappable : Mappable)

/-- Performing one call on an index. -/
def applyOp (writer : RowWriter) (s : MapReduceIndex) : IndexOp → Option MapReduceIndex
  | .setup indexType map mapVersion => s.setup indexType map mapVersion
  | .erase => some s.erase
  | .updateDocInIndex mappable => (s.updateDocInIndex writer mappable).map Prod.snd

/-- Performing a sequence of calls on an index, in order. -/
def applyOps (writer : RowWriter) : List IndexOp → MapReduceIndex → Option MapReduceIndex
  | [], s => some s
  | op :: ops, s =>
    match applyOp writer s op with
    | none => none
    | some s => applyOps writer ops s

/-- The highest of `start` and the sequences of `docs`. -/
def maxSequence (docs : List Document) (start : Nat) : Nat :=
  docs.foldl (fun a d => max a d.sequence) start

/-- The six values `saveState` streams into the metadata record, in order. -/
def savedRecord (s : MapReduceIndex) : Collatable :=
  [Item.num s._lastSequenceIndexed, Item.num s._lastSequenceChangedAt, Item.str s._mapVersion,
   Item.num s._indexType, Item.num s._rowCount, Item.num kCurFormatVersion]

end forestdb

namespace forestdb

/-! ## Concrete data used to instantiate the theorems -/

/-- Modelled from the spec: a row writer that replaces the document's row set (one row per
emitted pair), reports whether the set differs and adjusts the row count by rows added minus
rows removed.  The real `IndexWriter` is not among the sources. -/
def IndexWriter.update : RowWriter := fun store docKey docSequence keys values rowCount =>
  let old := store.rows.filter fun r => r.docID == docKey
  let kept := store.rows.filter fun r => !(r.docID == docKey)
  let new := (keys.zip values).map fun kv => Row.mk kv.1 docKey docSequence kv.2
  let changed := !(decide (old.map (fun r => (r.key, r.value)) = new.map fun r => (r.key, r.value)))
  (changed,
   if changed then
     { store with rows := kept ++ new, lastSequence := wrap64 (store.lastSequence + 1) }
   else store,
   if changed then rowCount + new.length - old.length else rowCount)

/-- The persisted record is obsolete when, after its five fields, the format version is
missing (no data left, or the array's end tag) or is a number below `kMinFormatVersion`. -/
def obsoleteTail : List Item → Bool
  | [] => true
  | Item.endSequence :: _ => true
  | Item.num version :: _ => decide (version < kMinFormatVersion)
  | _ => false

/-- An array record with the five metadata fields, followed by `rest`. -/
def stateRecord (a b : Int) (v : String) (t r : Int) (rest : List Item) : Collatable :=
  Item.beginArray :: Item.num a :: Item.num b :: Item.str v :: Item.num t :: Item.num r :: rest

/-- A map function emitting one pair per document: its body as key, its sequence as value. -/
def sampleMap : MapFn := fun m => [([Item.str m.document.body], [Item.num m.document.sequence])]

/-- A source document with body "a" at sequence `n`. -/
def sampleDoc (key : String) (n : Nat) (deleted : Bool) : Document :=
  { key := key, sequence := n, deleted := deleted, body := "a" }

/-- An index caught up to sequence 5 with one row and a map installed. -/
def sampleIndex : MapReduceIndex :=
  { store := { rows := [Row.mk [Item.str "a"] "d" 5 [Item.num 5]], state := none, lastSequence := 1 }
    _sourceDatabase := { docs := [], lastSequence := 0 }
    _map := some sampleMap
    _indexType := 1
    _mapVersion := "1"
    _lastMapVersion := ""
    _lastSequenceIndexed := 5
    _lastSequenceChangedAt := 5
    _stateReadAt := 1
    _rowCount := 1
    calls := [] }

/-- An index store holding one row and no metadata record. -/
def rowsOnlyStore : KeyStore :=
  { rows := [Row.mk [Item.str "a"] "d" 1 [Item.num 1]], state := none, lastSequence := 1 }

/-- An index store holding one row and a metadata record without a format version. -/
def obsoleteStore : KeyStore :=
  { rows := [Row.mk [Item.str "a"] "d" 3 [Item.num 3]]
    state := some (stateRecord 3 3 "1" 1 1 [Item.endSequence])
    lastSequence := 2 }

/-- A source store with documents at sequences 1 to 10, the one at 7 a tombstone. -/
def tenDocs : SourceStore :=
  { docs :=
      [sampleDoc "d1" 1 false, sampleDoc "d2" 2 false, sampleDoc "d3" 3 false,
       sampleDoc "d4" 4 false, sampleDoc "d5" 5 false, sampleDoc "d6" 6 false,
       sampleDoc "d7" 7 true, sampleDoc "d8" 8 false, sampleDoc "d9" 9 false,
       sampleDoc "d10" 10 false]
    lastSequence := 10 }

/-- An index over `tenDocs` caught up to sequence `n`, with a fresh cache and no rows. -/
def caughtUpTo (n : Nat) : MapReduceIndex :=
  { store := { rows := [], state := none, lastSequence := 0 }
    _sourceDatabase := tenDocs
    _map := some sampleMap
    _indexType := 1
    _mapVersion := "1"
    _lastMapVersion := ""
    _lastSequenceIndexed := n
    _lastSequenceChangedAt := n
    _stateReadAt := 0
    _rowCount := 0
    calls := [] }

/-- A coordinator over two indexes, caught up to 10 and to 5. -/
def twoIndexes : MapReduceIndexer := MapReduceIndexer.new [caughtUpTo 10, caughtUpTo 5]

/-- A source store with no documents. -/
def emptySource : SourceStore := { docs := [], lastSequence := 0 }

/-- An empty index store. -/
def emptyStore : KeyStore := { rows := [], state := none, lastSequence := 0 }

/-- An index store whose metadata record is an array in the current format: caught up to
sequence 5, map version "1", index type 1, one row. -/
def currentStore : KeyStore :=
  { rows := [Row.mk [Item.str "a"] "d" 5 [Item.num 5]]
    state := some (stateRecord 5 5 "1" 1 1 [Item.num 1, Item.endSequence])
    lastSequence := 2 }

/-- The end-to-end store of the spec: `d1` at sequence 1 with body "a", `d2` at sequence 2
with body "b". -/
def twoDocs : SourceStore :=
  { docs :=
      [{ key := "d1", sequence := 1, deleted := false, body := "a" },
       { key := "d2", sequence := 2, deleted := false, body := "b" }]
    lastSequence := 2 }

/-- A new, empty index over `twoDocs` with the sample map set by `setup`. -/
def emptyIndex : MapReduceIndex :=
  { MapReduceIndex.init emptyStore twoDocs with
    _map := some sampleMap, _indexType := 1, _mapVersion := "1" }

/-- A coordinator over the one empty index. -/
def oneIndex : MapReduceIndexer := MapReduceIndexer.new [emptyIndex]

/-- The coordinator `twoIndexes` with its second index, the one behind, as trigger. -/
def triggerBehind : MapReduceIndexer := { twoIndexes with _triggerIndex := some 1 }

/-- The coordinator `twoIndexes` with its first index, the caught-up one, as trigger. -/
def triggerCaughtUp : MapReduceIndexer := { twoIndexes with _triggerIndex := some 0 }

end forestdb

namespace forestdb

/-! ## Helper lemmas: the emitter and one index update -/

theorem emitter_foldl_keys (l : List (Collatable × Collatable)) (e : emitter) :
    (l.foldl (fun e kv => e.call kv.1 kv.2) e).keys = e.keys ++ l.map Prod.fst := by
  induction l generalizing e with
  | nil => simp
  | cons kv l ih => rw [List.foldl_cons, ih]; simp [emitter.call]

theorem emitter_foldl_values (l : List (Collatable × Collatable)) (e : emitter) :
    (l.foldl (fun e kv => e.call kv.1 kv.2) e).values = e.values ++ l.map Prod.snd := by
  induction l generalizing e with
  | nil => simp
  | cons kv l ih => rw [List.foldl_cons, ih]; simp [emitter.call]

theorem MapFn.run_keys (map : MapFn) (m : Mappable) :
    (map.run m {}).keys = (map m).map Prod.fst := by
  simp [MapFn.run, emitter_foldl_keys]

theorem MapFn.run_values (map : MapFn) (m : Mappable) :
    (map.run m {}).values = (map m).map Prod.snd := by
  simp [MapFn.run, emitter_foldl_values]

namespace MapReduceIndex

/-- What `updateDocInIndex` does to a tombstone with a new sequence. -/
theorem updateDocInIndex_deleted (w : RowWriter) (s : MapReduceIndex) (m : Mappable)
    (hseq : s._lastSequenceIndexed < m.document.sequence) (hdel : m.document.deleted = true) :
    updateDocInIndex w s m =
      some ((w s.store m.document.key m.document.sequence [] [] s._rowCount).1,
        { s with
          store := (w s.store m.document.key m.document.sequence [] [] s._rowCount).2.1
          _rowCount := (w s.store m.document.key m.document.sequence [] [] s._rowCount).2.2
          _lastSequenceIndexed := m.document.sequence
          _lastSequenceChangedAt :=
            if (w s.store m.document.key m.document.sequence [] [] s._rowCount).1
            then m.document.sequence else s._lastSequenceChangedAt
          calls := s.calls ++ [Call.update m.document.key m.document.sequence [] []] }) := by
  have h : ¬ m.document.sequence ≤ s._lastSequenceIndexed := Nat.not_le.mpr hseq
  simp only [updateDocInIndex, h, hdel, if_false, Bool.not_true, Bool.false_eq_true]
  cases hw : (w s.store m.document.key m.document.sequence [] [] s._rowCount).1 <;>
    simp [hw, bind, Option.bind]

/-- What `updateDocInIndex` does to a live document with a new sequence when a map is set. -/
theorem updateDocInIndex_live (w : RowWriter) (s : MapReduceIndex) (m : Mappable) (f : MapFn)
    (hseq : s._lastSequenceIndexed < m.document.sequence) (hdel : m.document.deleted = false)
    (hmap : s._map = some f) :
    updateDocInIndex w s m =
      some ((w s.store m.document.key m.document.sequence ((f m).map Prod.fst)
              ((f m).map Prod.snd) s._rowCount).1,
        { s with
          store := (w s.store m.document.key m.document.sequence ((f m).map Prod.fst)
              ((f m).map Prod.snd) s._rowCount).2.1
          _rowCount := (w s.store m.document.key m.document.sequence ((f m).map Prod.fst)
              ((f m).map Prod.snd) s._rowCount).2.2
          _lastSequenceIndexed := m.document.sequence
          _lastSequenceChangedAt :=
            if (w s.store m.document.key m.document.sequence ((f m).map Prod.fst)
              ((f m).map Prod.snd) s._rowCount).1
            then m.document.sequence else s._lastSequenceChangedAt
          calls := s.calls ++ [Call.map m.document,
            Call.update m.document.key m.document.sequence ((f m).map Prod.fst)
              ((f m).map Prod.snd)] }) := by
  have h : ¬ m.document.sequence ≤ s._lastSequenceIndexed := Nat.not_le.mpr hseq
  simp only [updateDocInIndex, h, hdel, if_false, callMap, hmap, Bool.not_false, if_true,
    MapFn.run_keys, MapFn.run_values, bind, Option.bind]
  cases hw : (w s.store m.document.key m.document.sequence ((f m).map Prod.fst)
              ((f m).map Prod.snd) s._rowCount).1 <;>
    simp [hw]

end MapReduceIndex

end forestdb

namespace forestdb

/-! ## The per-document update -/

namespace MapReduceIndex

/-- Claim C1: a document whose sequence is at most `lastSequenceIndexed` is rejected:
`updateDocInIndex` returns false and hands back the very same index state, so the map
function and the row writer are not called (the call log is the same) and
`lastSequenceIndexed`, `lastSequenceChangedAt` and `rowCount` keep their values. -/
theorem updateDocInIndex_rejects_indexed (w : RowWriter) (s : MapReduceIndex) (m : Mappable)
    (h : m.document.sequence ≤ s._lastSequenceIndexed) :
    updateDocInIndex w s m = some (false, s) ∧
      ∀ r s', updateDocInIndex w s m = some (r, s') →
        r = false ∧ s'.calls = s.calls ∧ s'.store = s.store ∧
        s'._lastSequenceIndexed = s._lastSequenceIndexed ∧
        s'._lastSequenceChangedAt = s._lastSequenceChangedAt ∧ s'._rowCount = s._rowCount := by
  have e : updateDocInIndex w s m = some (false, s) := by simp [updateDocInIndex, h]
  refine ⟨e, ?_⟩
  intro r s' hr
  rw [e] at hr
  cases hr
  simp

/-- Instance of C1: Nat 3 offered to an index caught up to 5. -/
theorem updateDocInIndex_rejects_indexed_witness :
    (sampleDoc "d" 3 false).sequence ≤ sampleIndex._lastSequenceIndexed ∧
    updateDocInIndex IndexWriter.update sampleIndex ⟨sampleDoc "d" 3 false⟩
      = some (false, sampleIndex) :=
  ⟨by decide,
   (updateDocInIndex_rejects_indexed IndexWriter.update sampleIndex ⟨sampleDoc "d" 3 false⟩
     (by decide)).1⟩

/-- Claim C2: for a document whose sequence is greater than `lastSequenceIndexed` the call
completes (a tombstone needs no map, a live document needs a map to be set) and afterwards
`lastSequenceIndexed` is the document's sequence, whatever the map emits and whatever the
row writer reports. -/
theorem updateDocInIndex_advances_lastSequenceIndexed (w : RowWriter) (s : MapReduceIndex)
    (m : Mappable) (hseq : s._lastSequenceIndexed < m.document.sequence)
    (hmap : m.document.deleted = true ∨ s._map.isSome = true) :
    ∃ r s', updateDocInIndex w s m = some (r, s') ∧
      s'._lastSequenceIndexed = m.document.sequence := by
  cases hdel : m.document.deleted with
  | true => exact ⟨_, _, updateDocInIndex_deleted w s m hseq hdel, rfl⟩
  | false =>
    rw [hdel] at hmap
    obtain ⟨f, hf⟩ := Option.isSome_iff_exists.mp (hmap.resolve_left (by simp))
    exact ⟨_, _, updateDocInIndex_live w s m f hseq hdel hf, rfl⟩

/-- Instance of C2: a tombstone at sequence 7 offered to an index caught up to 5. -/
theorem updateDocInIndex_advances_lastSequenceIndexed_witness :
    sampleIndex._lastSequenceIndexed < (sampleDoc "d" 7 true).sequence ∧
    ((sampleDoc "d" 7 true).deleted = true ∨ sampleIndex._map.isSome = true) ∧
    ∃ r s', updateDocInIndex IndexWriter.update sampleIndex ⟨sampleDoc "d" 7 true⟩ = some (r, s') ∧
      s'._lastSequenceIndexed = (sampleDoc "d" 7 true).sequence :=
  ⟨by decide, Or.inl rfl,
   updateDocInIndex_advances_lastSequenceIndexed IndexWriter.update sampleIndex
     ⟨sampleDoc "d" 7 true⟩ (by decide) (Or.inl rfl)⟩

/-- Claim C3: for a document with a new sequence, the row writer is called once, with the
document's key and sequence and with key and value lists that are the first and second
components of the map function's emitted pairs, in emission order and of equal length,
when the document is live; for a tombstone the map function is not called (no `map` entry
in the call log) and both lists are empty. -/
theorem updateDocInIndex_writer_arguments (w : RowWriter) (s : MapReduceIndex) (m : Mappable)
    (hseq : s._lastSequenceIndexed < m.document.sequence) :
    (∀ f, m.document.deleted = false → s._map = some f →
      ∃ r s', updateDocInIndex w s m = some (r, s') ∧
        s'.calls = s.calls ++ [Call.map m.document,
          Call.update m.document.key m.document.sequence
            ((f m).map Prod.fst) ((f m).map Prod.snd)] ∧
        ((f m).map Prod.fst).length = (f m).length ∧
        ((f m).map Prod.snd).length = (f m).length ∧
        ((f m).map Prod.fst).zip ((f m).map Prod.snd) = f m ∧
        (r, s'.store, s'._rowCount) =
          w s.store m.document.key m.document.sequence
            ((f m).map Prod.fst) ((f m).map Prod.snd) s._rowCount) ∧
    (m.document.deleted = true →
      ∃ r s', updateDocInIndex w s m = some (r, s') ∧
        s'.calls = s.calls ++ [Call.update m.document.key m.document.sequence [] []] ∧
        (r, s'.store, s'._rowCount) =
          w s.store m.document.key m.document.sequence [] [] s._rowCount) := by
  constructor
  · intro f hdel hf
    exact ⟨_, _, updateDocInIndex_live w s m f hseq hdel hf, rfl, by simp, by simp,
      (List.zip_of_prod rfl rfl).symm, rfl⟩
  · intro hdel
    exact ⟨_, _, updateDocInIndex_deleted w s m hseq hdel, rfl, rfl⟩

/-- Instance of C3: a live document at sequence 7 offered to an index caught up to 5. -/
theorem updateDocInIndex_writer_arguments_witness :
    sampleIndex._lastSequenceIndexed < (sampleDoc "d" 7 false).sequence ∧
    ∃ r s', updateDocInIndex IndexWriter.update sampleIndex ⟨sampleDoc "d" 7 false⟩ = some (r, s') ∧
      s'.calls = [Call.map (sampleDoc "d" 7 false),
        Call.update "d" 7 [[Item.str "a"]] [[Item.num 7]]] := by
  refine ⟨by decide, ?_⟩
  obtain ⟨r, s', h, hc, -⟩ :=
    (updateDocInIndex_writer_arguments IndexWriter.update sampleIndex ⟨sampleDoc "d" 7 false⟩
      (by decide)).1 sampleMap rfl rfl
  exact ⟨r, s', h, hc⟩

/-- The emitter contents `updateDocInIndex` passes to the row writer. -/
theorem updateDocInIndex_reports_writer_aux (w : RowWriter) (s : MapReduceIndex) (m : Mappable)
    (hseq : s._lastSequenceIndexed < m.document.sequence)
    (hmap : m.document.deleted = true ∨ s._map.isSome = true) :
    ∃ keys values s', updateDocInIndex w s m =
        some ((w s.store m.document.key m.document.sequence keys values s._rowCount).1, s') ∧
      s'.calls.getLast? = some (Call.update m.document.key m.document.sequence keys values) ∧
      s'._lastSequenceChangedAt =
        if (w s.store m.document.key m.document.sequence keys values s._rowCount).1
        then m.document.sequence else s._lastSequenceChangedAt := by
  cases hdel : m.document.deleted with
  | true => exact ⟨_, _, _, updateDocInIndex_deleted w s m hseq hdel, by simp, rfl⟩
  | false =>
    rw [hdel] at hmap
    obtain ⟨f, hf⟩ := Option.isSome_iff_exists.mp (hmap.resolve_left (by simp))
    exact ⟨_, _, _, updateDocInIndex_live w s m f hseq hdel hf, by simp, rfl⟩

/-- Claim C4: for a document with a new sequence, `updateDocInIndex` returns exactly what
its one call of the row writer reports; when that is true `lastSequenceChangedAt` becomes
the document's sequence, when it is false `lastSequenceChangedAt` keeps its value. -/
theorem updateDocInIndex_reports_writer (w : RowWriter) (s : MapReduceIndex) (m : Mappable)
    (hseq : s._lastSequenceIndexed < m.document.sequence)
    (hmap : m.document.deleted = true ∨ s._map.isSome = true) :
    ∃ keys values r s', updateDocInIndex w s m = some (r, s') ∧
      s'.calls.getLast? = some (Call.update m.document.key m.document.sequence keys values) ∧
      r = (w s.store m.document.key m.document.sequence keys values s._rowCount).1 ∧
      (r = true → s'._lastSequenceChangedAt = m.document.sequence) ∧
      (r = false → s'._lastSequenceChangedAt = s._lastSequenceChangedAt) := by
  obtain ⟨keys, values, s', h, hc, hl⟩ := updateDocInIndex_reports_writer_aux w s m hseq hmap
  refine ⟨keys, values, _, s', h, hc, rfl, ?_, ?_⟩
  · intro hr; rw [hl, hr]; simp
  · intro hr; rw [hl, hr]; simp

/-- Instance of C4: a live document at sequence 7 offered to an index caught up to 5. -/
theorem updateDocInIndex_reports_writer_witness :
    sampleIndex._lastSequenceIndexed < (sampleDoc "d" 7 false).sequence ∧
    ((sampleDoc "d" 7 false).deleted = true ∨ sampleIndex._map.isSome = true) ∧
    ∃ keys values r s',
      updateDocInIndex IndexWriter.update sampleIndex ⟨sampleDoc "d" 7 false⟩ = some (r, s') ∧
      s'.calls.getLast? = some (Call.update "d" 7 keys values) ∧
      r = (IndexWriter.update sampleIndex.store "d" 7 keys values 1).1 ∧
      (r = true → s'._lastSequenceChangedAt = 7) ∧
      (r = false → s'._lastSequenceChangedAt = 5) :=
  ⟨by decide, Or.inr rfl,
   updateDocInIndex_reports_writer IndexWriter.update sampleIndex ⟨sampleDoc "d" 7 false⟩
     (by decide) (Or.inr rfl)⟩

end MapReduceIndex

end forestdb

namespace forestdb

/-! ## Persisted state: `readState`, `saveState`, `setup`, `erase` -/

namespace MapReduceIndex

/-- Decoding never touches the store, the call log, the map or the declared version. -/
theorem decodeState_frame (s s1 : MapReduceIndex) (reader : CollatableReader)
    (h : decodeState s reader = some s1) :
    s1.store = s.store ∧ s1.calls = s.calls ∧ s1._map = s._map ∧
      s1._mapVersion = s._mapVersion ∧ s1._sourceDatabase = s._sourceDatabase := by
  simp only [decodeState, bind, Option.bind_eq_some, Prod.exists] at h
  obtain ⟨r1, -, a, r2, -, b, r3, -, v, r4, -, t, r5, -, r, r6, -, h⟩ := h
  split at h
  · cases h; simp [deleted]
  · simp only [Option.bind_eq_some, Prod.exists] at h
    obtain ⟨ver, r7, -, h⟩ := h
    split at h <;> cases h <;> simp [deleted]

/-- Member `readState` never touches the store, the call log, the map or the declared version. -/
theorem readState_frame (s s1 : MapReduceIndex) (h : readState s = some s1) :
    s1.store = s.store ∧ s1.calls = s.calls ∧ s1._map = s._map ∧
      s1._mapVersion = s._mapVersion ∧ s1._sourceDatabase = s._sourceDatabase := by
  unfold readState at h
  simp only at h
  split at h
  · simp only [bind, Option.bind_eq_some] at h
    obtain ⟨s0, h0, h⟩ := h
    cases h
    split at h0
    · simpa using decodeState_frame s s0 _ h0
    · cases h0; simp
  · cases h; simp

/-- With a fresh cache `readState` does nothing. -/
theorem readState_fresh (s : MapReduceIndex) (h : s._stateReadAt = s.store.lastSequence) :
    readState s = some s := by
  simp [readState, h]

/-- Decoding an obsolete record: the cached metadata is reset, nothing else happens. -/
theorem decodeState_obsolete (s : MapReduceIndex) (a b : Int) (v : String) (t r : Int)
    (rest : List Item) (hrest : obsoleteTail rest = true) :
    decodeState s (stateRecord a b v t r rest) =
      some { s with
        _lastSequenceIndexed := 0
        _lastSequenceChangedAt := 0
        _lastMapVersion := ""
        _stateReadAt := 0
        _rowCount := 0
        _indexType := 0 } := by
  match rest, hrest with
  | [], _ => rfl
  | Item.endSequence :: _, _ => rfl
  | Item.num version :: rest', h =>
    have hv : version < kMinFormatVersion := by simpa [obsoleteTail] using h
    simp [decodeState, stateRecord, CollatableReader.beginArray, CollatableReader.readInt,
      CollatableReader.readString, CollatableReader.peekTag, Item.tag, bind, Option.bind, hv,
      deleted]

/-- Reading an obsolete record with a stale cache. -/
theorem readState_obsolete (s : MapReduceIndex) (a b : Int) (v : String) (t r : Int)
    (rest : List Item) (hrec : s.store.state = some (stateRecord a b v t r rest))
    (hrest : obsoleteTail rest = true) (hstale : s._stateReadAt ≠ s.store.lastSequence) :
    readState s =
      some { s with
        _lastSequenceIndexed := 0
        _lastSequenceChangedAt := 0
        _lastMapVersion := ""
        _stateReadAt := s.store.lastSequence
        _rowCount := 0
        _indexType := 0 } := by
  have hpeek : CollatableReader.peekTag (stateRecord a b v t r rest) = Tag.kArray := rfl
  simp [readState, hstale, KeyStore.getState, hrec, hpeek, decodeState_obsolete s a b v t r rest hrest,
    bind, Option.bind]

/-- The record `saveState` writes: six values in a row, with no array tag around them. -/
theorem saveState_record (s : MapReduceIndex) :
    (saveState s).store.state =
      some [Item.num s._lastSequenceIndexed, Item.num s._lastSequenceChangedAt,
        Item.str s._mapVersion, Item.num s._indexType, Item.num s._rowCount,
        Item.num kCurFormatVersion] := by
  simp [saveState, KeyStore.setState, Collatable.addInt, Collatable.addString]

/-- A record that does not start with the array tag is ignored by `readState`. -/
theorem readState_not_array (s : MapReduceIndex)
    (h : CollatableReader.peekTag s.store.getState ≠ Tag.kArray) :
    readState s = some { s with _stateReadAt := s.store.lastSequence } := by
  by_cases hs : s._stateReadAt = s.store.lastSequence
  · rw [readState_fresh s hs]; rw [← hs]
  · simp [readState, hs, h, bind, Option.bind]

/-- The outcome of `setup`, given the state its `readState` produces. -/
theorem setup_eq (s s1 : MapReduceIndex) (indexType : Int) (map : Option MapFn)
    (mapVersion : String) (h : readState s = some s1) :
    setup s indexType map mapVersion =
      if indexType ≠ s1._indexType ∨ mapVersion ≠ s1._lastMapVersion then
        some { s1 with
          _map := map
          _indexType := indexType
          _mapVersion := mapVersion
          store := if s1._lastSequenceIndexed > 0 then s1.store.erase else s1.store
          calls := if s1._lastSequenceIndexed > 0 then s1.calls ++ [Call.erase] else s1.calls
          _lastSequenceIndexed := 0
          _lastSequenceChangedAt := 0
          _rowCount := 0
          _stateReadAt := 0 }
      else some s1 := by
  simp only [setup, h, bind, Option.bind]
  split
  · split <;> rfl
  · rfl

/-- On a fresh cache with all three counters at 0, `setup` never erases the store. -/
theorem setup_without_erase (s : MapReduceIndex) (hfresh : s._stateReadAt = s.store.lastSequence)
    (h1 : s._lastSequenceIndexed = 0) (h2 : s._lastSequenceChangedAt = 0) (h3 : s._rowCount = 0)
    (indexType : Int) (map : Option MapFn) (mapVersion : String) :
    ∃ s2, setup s indexType map mapVersion = some s2 ∧ s2.store = s.store ∧
      s2.calls = s.calls ∧ s2._lastSequenceIndexed = 0 ∧ s2._lastSequenceChangedAt = 0 ∧
      s2._rowCount = 0 := by
  have hsetup := setup_eq s s indexType map mapVersion (readState_fresh s hfresh)
  by_cases hne : indexType ≠ s._indexType ∨ mapVersion ≠ s._lastMapVersion
  · rw [if_pos hne] at hsetup
    refine ⟨_, hsetup, ?_, ?_, rfl, rfl, rfl⟩ <;> simp [h1]
  · rw [if_neg hne] at hsetup
    exact ⟨_, hsetup, rfl, rfl, h1, h2, h3⟩

/-- Claim C5, as amended: `setup` first refreshes the cached metadata (`readState`).  With
an index type or map version different from the refreshed ones it sets
`lastSequenceIndexed`, `lastSequenceChangedAt` and `rowCount` to 0, and it erases the store
exactly when the refreshed `lastSequenceIndexed` is greater than 0; when that is 0 the
store, rows included, is left as it was.  With both equal it erases nothing and the
counters are the refreshed ones. -/
theorem setup_rebuilds_on_mismatch (s s1 : MapReduceIndex) (indexType : Int)
    (map : Option MapFn) (mapVersion : String) (h : readState s = some s1) :
    (indexType ≠ s1._indexType ∨ mapVersion ≠ s1._lastMapVersion →
      ∃ s2, setup s indexType map mapVersion = some s2 ∧
        s2._lastSequenceIndexed = 0 ∧ s2._lastSequenceChangedAt = 0 ∧ s2._rowCount = 0 ∧
        (0 < s1._lastSequenceIndexed →
          s2.store.rows = [] ∧ s2.store.state = none ∧ s2.calls = s.calls ++ [Call.erase]) ∧
        (s1._lastSequenceIndexed = 0 → s2.store = s.store ∧ s2.calls = s.calls)) ∧
    (indexType = s1._indexType ∧ mapVersion = s1._lastMapVersion →
      setup s indexType map mapVersion = some s1 ∧ s1.store = s.store ∧ s1.calls = s.calls) := by
  obtain ⟨hst, hcalls, -⟩ := readState_frame s s1 h
  constructor
  · intro hne
    refine ⟨_, by rw [setup_eq s s1 _ _ _ h, if_pos hne], rfl, rfl, rfl, ?_, ?_⟩
    · intro hpos
      simp [hpos, KeyStore.erase, hcalls]
    · intro hz
      simp [hz, hst, hcalls]
  · intro heq
    refine ⟨?_, hst, hcalls⟩
    rw [setup_eq s s1 _ _ _ h, if_neg]
    simp [heq.1, heq.2]

/-- Instance of C5's amended statement: the sample index (caught up to 5, one row) is set
up with a new map version. -/
theorem setup_rebuilds_on_mismatch_witness :
    readState sampleIndex = some sampleIndex ∧
    ∃ s2, setup sampleIndex 1 (some sampleMap) "2" = some s2 ∧
      s2._lastSequenceIndexed = 0 ∧ s2._lastSequenceChangedAt = 0 ∧ s2._rowCount = 0 ∧
      s2.store.rows = [] := by
  have h : readState sampleIndex = some sampleIndex := readState_fresh sampleIndex rfl
  obtain ⟨s2, hs, h1, h2, h3, h4, -⟩ :=
    (setup_rebuilds_on_mismatch sampleIndex sampleIndex 1 (some sampleMap) "2" h).1
      (Or.inr (by decide))
  exact ⟨h, s2, hs, h1, h2, h3, (h4 (by decide)).1⟩

/-- Counterexample to C5 as stated: an index is set up on an empty store and indexes one
document, which writes a row; its metadata is not saved.  A new index object on that store
has `lastSequenceIndexed = 0`, and `setup` with a map version that differs from the stored
one keeps the row. -/
theorem setup_keeps_rows_counterexample :
    ∃ s0 s1 r s2 s3 s4,
      MapReduceIndex.new { rows := [], state := none, lastSequence := 0 } emptySource = some s0 ∧
      setup s0 1 (some sampleMap) "1" = some s1 ∧
      updateDocInIndex IndexWriter.update s1 ⟨sampleDoc "d" 1 false⟩ = some (r, s2) ∧
      s2.store = rowsOnlyStore ∧
      MapReduceIndex.new s2.store emptySource = some s3 ∧
      s3.store.rows ≠ [] ∧ "2" ≠ s3._lastMapVersion ∧
      setup s3 1 (some sampleMap) "2" = some s4 ∧
      s4.store.rows = rowsOnlyStore.rows ∧ s4.store.rows ≠ [] := by
  refine ⟨_, _, _, _, _, _, rfl, rfl, rfl, rfl, rfl, ?_, ?_, rfl, rfl, ?_⟩ <;> decide

/-- Counterexample to C6 as stated: the store holds a row and a record without a format
version.  Constructing the index (which runs `readState`) and calling `setup` with a new
index type and map version leaves the obsolete row in the store. -/
theorem obsolete_rows_survive_counterexample :
    obsoleteTail [Item.endSequence] = true ∧
    ∃ s1 s2, MapReduceIndex.new obsoleteStore emptySource = some s1 ∧
      setup s1 2 (some sampleMap) "2" = some s2 ∧
      s2.store.rows = [Row.mk [Item.str "a"] "d" 3 [Item.num 3]] ∧ s2.store.rows ≠ [] := by
  refine ⟨rfl, _, _, rfl, rfl, rfl, ?_⟩
  decide

/-- Claim C6, as amended: when the record's format version is missing or below the minimum,
constructing the index resets `lastSequenceIndexed`, `lastSequenceChangedAt` and `rowCount`
to 0, `lastMapVersion` to the empty string and `indexType` to 0, and leaves the store
untouched; a following `setup`, with any index type, map and map version, completes, makes
no call on the store (nothing is erased, the rows are still there) and leaves the three
counters at 0. -/
theorem obsolete_record_resets_metadata_only (store : KeyStore) (source : SourceStore)
    (a b : Int) (v : String) (t r : Int) (rest : List Item)
    (hrec : store.state = some (stateRecord a b v t r rest))
    (hrest : obsoleteTail rest = true) (hseq : store.lastSequence ≠ 0)
    (indexType : Int) (map : Option MapFn) (mapVersion : String) :
    ∃ s1 s2, MapReduceIndex.new store source = some s1 ∧
      s1._lastSequenceIndexed = 0 ∧ s1._lastSequenceChangedAt = 0 ∧ s1._rowCount = 0 ∧
      s1._lastMapVersion = "" ∧ s1._indexType = 0 ∧ s1.store = store ∧
      setup s1 indexType map mapVersion = some s2 ∧
      s2.store = store ∧ s2.calls = [] ∧
      s2._lastSequenceIndexed = 0 ∧ s2._lastSequenceChangedAt = 0 ∧ s2._rowCount = 0 := by
  have hnew : MapReduceIndex.new store source =
      some { init store source with _stateReadAt := store.lastSequence } :=
    readState_obsolete (init store source) a b v t r rest hrec hrest (fun h => hseq h.symm)
  obtain ⟨s2, hsetup, hstore, hcalls, h1, h2, h3⟩ :=
    setup_without_erase { init store source with _stateReadAt := store.lastSequence }
      rfl rfl rfl rfl indexType map mapVersion
  exact ⟨_, s2, hnew, rfl, rfl, rfl, rfl, rfl, rfl, hsetup, hstore, hcalls, h1, h2, h3⟩

/-- Instance of C6's amended statement on the sample obsolete store. -/
theorem obsolete_record_resets_metadata_only_witness :
    obsoleteStore.state = some (stateRecord 3 3 "1" 1 1 [Item.endSequence]) ∧
    obsoleteTail [Item.endSequence] = true ∧ obsoleteStore.lastSequence ≠ 0 ∧
    ∃ s1 s2, MapReduceIndex.new obsoleteStore emptySource = some s1 ∧
      s1._lastSequenceIndexed = 0 ∧ s1.store = obsoleteStore ∧
      setup s1 1 (some sampleMap) "1" = some s2 ∧ s2.store = obsoleteStore ∧ s2.calls = [] := by
  obtain ⟨s1, s2, h1, h2, -, -, -, -, h3, h4, h5, h6, -⟩ :=
    obsolete_record_resets_metadata_only obsoleteStore emptySource 3 3 "1" 1 1
      [Item.endSequence] rfl rfl (by decide) 1 (some sampleMap) "1"
  exact ⟨rfl, rfl, by decide, s1, s2, h1, h2, h3, h4, h5, h6⟩

/-- Claim C7: `erase` empties the store and sets `lastSequenceIndexed`,
`lastSequenceChangedAt` and `rowCount` to 0; the map function, the declared map version,
the persisted `lastMapVersion` and the index type keep their values. -/
theorem erase_resets_counters_only (s : MapReduceIndex) :
    (erase s).store.rows = [] ∧ (erase s).store.state = none ∧
    (erase s).calls = s.calls ++ [Call.erase] ∧
    (erase s)._lastSequenceIndexed = 0 ∧ (erase s)._lastSequenceChangedAt = 0 ∧
    (erase s)._rowCount = 0 ∧
    (erase s)._map = s._map ∧ (erase s)._mapVersion = s._mapVersion ∧
    (erase s)._lastMapVersion = s._lastMapVersion ∧ (erase s)._indexType = s._indexType :=
  ⟨rfl, rfl, rfl, rfl, rfl, rfl, rfl, rfl, rfl, rfl⟩

/-- A new index object on a store whose record was written by `saveState` starts from
zero: the record carries no array tag, so `readState` skips it. -/
theorem new_after_saveState (s : MapReduceIndex) (source : SourceStore) :
    ∃ s', MapReduceIndex.new (saveState s).store source = some s' ∧
      s'._lastSequenceIndexed = 0 ∧ s'._lastSequenceChangedAt = 0 ∧ s'._lastMapVersion = "" ∧
      s'._indexType = 0 ∧ s'._rowCount = 0 := by
  refine ⟨_, readState_not_array _ ?_, rfl, rfl, rfl, rfl, rfl⟩
  have h : (init (saveState s).store source).store.getState =
      [Item.num s._lastSequenceIndexed, Item.num s._lastSequenceChangedAt,
        Item.str s._mapVersion, Item.num s._indexType, Item.num s._rowCount,
        Item.num kCurFormatVersion] := by
    simp [init, KeyStore.getState, saveState_record]
  rw [h]
  simp [CollatableReader.peekTag, Item.tag]

/-- A record that does carry the array tag, the five fields and a supported format version
is decoded field by field. -/
theorem decodeState_current (s : MapReduceIndex) (a b : Int) (v : String) (t r version : Int)
    (rest : List Item) (hversion : kMinFormatVersion ≤ version) :
    decodeState s (stateRecord a b v t r (Item.num version :: rest)) =
      some { s with
        _lastSequenceIndexed := toUInt64 a
        _lastSequenceChangedAt := toUInt64 b
        _lastMapVersion := v
        _indexType := toInt32 t
        _rowCount := toUInt64 r } := by
  have hv : ¬ version < kMinFormatVersion := not_lt.mpr hversion
  simp [decodeState, stateRecord, CollatableReader.beginArray, CollatableReader.readInt,
    CollatableReader.readString, CollatableReader.peekTag, Item.tag, bind, Option.bind, hv]

/-- Claim C8 at the sample index (caught up to 5, map version "1", type 1, one row): the
record `saveState` writes holds the six values in the stated order but is not an array, and
a new index object reading that record has `lastSequenceIndexed`, `lastSequenceChangedAt`
and `rowCount` 0 and an empty `lastMapVersion` instead of 5, 5, 1 and "1". -/
theorem saveState_record_not_read_back :
    (saveState sampleIndex).store.state =
      some [Item.num 5, Item.num 5, Item.str "1", Item.num 1, Item.num 1, Item.num 1] ∧
    CollatableReader.peekTag (saveState sampleIndex).store.getState = Tag.kNumber ∧
    (saveState sampleIndex)._lastSequenceIndexed = 5 ∧
    ∃ s', MapReduceIndex.new (saveState sampleIndex).store emptySource = some s' ∧
      s'._lastSequenceIndexed = 0 ∧ s'._lastSequenceChangedAt = 0 ∧
      s'._lastMapVersion = "" ∧ s'._indexType = 0 ∧ s'._rowCount = 0 :=
  ⟨rfl, rfl, rfl, _, rfl, rfl, rfl, rfl, rfl, rfl⟩

end MapReduceIndex

end forestdb

namespace forestdb

/-! ## The coordinator: helper lemmas -/

/-- A document at or below `lastSequenceIndexed` leaves the index as it is. -/
theorem updateDocInIndex_rejected (w : RowWriter) (s : MapReduceIndex) (m : Mappable)
    (h : m.document.sequence ≤ s._lastSequenceIndexed) :
    s.updateDocInIndex w m = some (false, s) := by
  simp [MapReduceIndex.updateDocInIndex, h]

/-- The two ways a per-document update can complete. -/
theorem updateDocInIndex_cases (w : RowWriter) (s s' : MapReduceIndex) (m : Mappable) (r : Bool)
    (h : s.updateDocInIndex w m = some (r, s')) :
    (m.document.sequence ≤ s._lastSequenceIndexed ∧ s' = s) ∨
    (s._lastSequenceIndexed < m.document.sequence ∧
      s'._lastSequenceIndexed = m.document.sequence ∧
      s'.calls = s.calls ++ callsFor s._map m.document ∧ s'._map = s._map) := by
  by_cases hle : m.document.sequence ≤ s._lastSequenceIndexed
  · left
    rw [updateDocInIndex_rejected w s m hle] at h
    cases h
    exact ⟨hle, rfl⟩
  · right
    have hlt : s._lastSequenceIndexed < m.document.sequence := Nat.lt_of_not_le hle
    refine ⟨hlt, ?_⟩
    cases hdel : m.document.deleted with
    | true =>
      rw [MapReduceIndex.updateDocInIndex_deleted w s m hlt hdel] at h
      cases h
      simp [callsFor, hdel]
    | false =>
      cases hmap : s._map with
      | none =>
        simp [MapReduceIndex.updateDocInIndex, hle, hdel, MapReduceIndex.callMap, hmap, bind,
          Option.bind] at h
      | some f =>
        rw [MapReduceIndex.updateDocInIndex_live w s m f hlt hdel hmap] at h
        cases h
        simp [callsFor, hdel, hmap]

/-- With a map set, the per-document update always completes. -/
theorem updateDocInIndex_defined (w : RowWriter) (s : MapReduceIndex) (m : Mappable)
    (hmap : s._map.isSome = true) :
    ∃ r s', s.updateDocInIndex w m = some (r, s') := by
  by_cases hle : m.document.sequence ≤ s._lastSequenceIndexed
  · exact ⟨_, _, updateDocInIndex_rejected w s m hle⟩
  · have hlt : s._lastSequenceIndexed < m.document.sequence := Nat.lt_of_not_le hle
    obtain ⟨f, hf⟩ := Option.isSome_iff_exists.mp hmap
    cases hdel : m.document.deleted with
    | true => exact ⟨_, _, MapReduceIndex.updateDocInIndex_deleted w s m hlt hdel⟩
    | false => exact ⟨_, _, MapReduceIndex.updateDocInIndex_live w s m f hlt hdel hf⟩

/-- Over documents in strictly ascending sequence order, one index applies exactly those
above its `lastSequenceIndexed`, each once and in order. -/
theorem updateDocs_calls (w : RowWriter) (docs : List Document) :
    ∀ (idx idx' : MapReduceIndex), updateDocs w docs idx = some idx' →
      docs.Pairwise (fun a b => a.sequence < b.sequence) →
      idx'.calls = idx.calls ++
          (docs.filter fun d => decide (idx._lastSequenceIndexed < d.sequence)).flatMap
            (callsFor idx._map) ∧
        idx'._map = idx._map ∧
        ((∀ d ∈ docs, d.sequence ≤ idx._lastSequenceIndexed) → idx' = idx) := by
  induction docs with
  | nil =>
    intro idx idx' h _
    simp only [updateDocs] at h
    cases h
    simp
  | cons d ds ih =>
    intro idx idx' h hsorted
    simp only [updateDocs] at h
    cases hstep : idx.updateDocInIndex w { document := d } with
    | none => simp [hstep] at h
    | some p =>
      obtain ⟨r, idx1⟩ := p
      simp only [hstep] at h
      have hds := (List.pairwise_cons.mp hsorted).2
      have hhead := (List.pairwise_cons.mp hsorted).1
      obtain ⟨hcalls, hmap, hsame⟩ := ih idx1 idx' h hds
      rcases updateDocInIndex_cases w idx idx1 _ r hstep with ⟨hle, heq⟩ | ⟨hlt, hlast, hc, hm⟩
      · subst heq
        have hle' : d.sequence ≤ idx1._lastSequenceIndexed := hle
        refine ⟨?_, hmap, ?_⟩
        · rw [hcalls, List.filter_cons_of_neg (by simpa using hle')]
        · intro hall
          exact hsame fun x hx => hall x (List.mem_cons_of_mem _ hx)
      · have hlt' : idx._lastSequenceIndexed < d.sequence := hlt
        have hlast' : idx1._lastSequenceIndexed = d.sequence := hlast
        refine ⟨?_, hmap.trans hm, ?_⟩
        · rw [hcalls, hc, hm, List.filter_cons_of_pos (by simpa using hlt'), hlast']
          have hf : (ds.filter fun x => decide (d.sequence < x.sequence)) =
              ds.filter fun x => decide (idx._lastSequenceIndexed < x.sequence) := by
            apply List.filter_congr
            intro x hx
            have := hhead x hx
            simp only [decide_eq_decide]
            constructor
            · intro _; omega
            · intro _; exact this
          rw [hf]
          simp [List.flatMap_cons, List.append_assoc]
        · intro hall
          have := hall d (List.mem_cons_self _ _)
          omega

end forestdb

namespace forestdb

/-- The per-document update keeps the map function. -/
theorem updateDocInIndex_map (w : RowWriter) (s s' : MapReduceIndex) (m : Mappable) (r : Bool)
    (h : s.updateDocInIndex w m = some (r, s')) : s'._map = s._map := by
  rcases updateDocInIndex_cases w s s' m r h with ⟨-, heq⟩ | ⟨-, -, -, hm⟩
  · rw [heq]
  · exact hm

/-- Chaining two position-wise relations between lists. -/
theorem forall₂_chain {α β γ : Type} {R : α → β → Prop} {S : β → γ → Prop} {T : α → γ → Prop} :
    ∀ {as : List α} {bs : List β} {cs : List γ},
      List.Forall₂ R as bs → List.Forall₂ S bs cs →
      (∀ a b c, b ∈ bs → R a b → S b c → T a c) → List.Forall₂ T as cs := by
  intro as bs cs h1
  induction h1 generalizing cs with
  | nil => intro h2 _; cases h2; exact List.Forall₂.nil
  | cons hab _ ih =>
    intro h2 hT
    cases h2 with
    | cons hbc htail =>
      exact List.Forall₂.cons (hT _ _ _ (List.mem_cons_self _ _) hab hbc)
        (ih htail fun a b c hb => hT a b c (List.mem_cons_of_mem _ hb))

namespace MapReduceIndexer

/-- The loop of `addMappable` updates the indexes position by position. -/
theorem addMappableLoop_spec (w : RowWriter) (m : Mappable) :
    ∀ (idxs idxs' : List MapReduceIndex), addMappableLoop w m idxs = some idxs' →
      List.Forall₂ (fun a b => ∃ r, a.updateDocInIndex w m = some (r, b)) idxs idxs' := by
  intro idxs
  induction idxs with
  | nil =>
    intro idxs' h
    simp only [addMappableLoop] at h
    cases h
    exact List.Forall₂.nil
  | cons idx rest ih =>
    intro idxs' h
    simp only [addMappableLoop] at h
    cases hstep : idx.updateDocInIndex w m with
    | none => simp [hstep] at h
    | some p =>
      obtain ⟨r, idx1⟩ := p
      simp only [hstep] at h
      cases hrest : addMappableLoop w m rest with
      | none => simp [hrest] at h
      | some rest' =>
        simp only [hrest] at h
        cases h
        exact List.Forall₂.cons ⟨r, hstep⟩ (ih rest' hrest)

/-- With every map set, the loop of `addMappable` completes and every map stays set. -/
theorem addMappableLoop_defined (w : RowWriter) (m : Mappable) :
    ∀ (idxs : List MapReduceIndex), (∀ idx ∈ idxs, idx._map.isSome = true) →
      ∃ idxs', addMappableLoop w m idxs = some idxs' ∧ ∀ idx ∈ idxs', idx._map.isSome = true := by
  intro idxs
  induction idxs with
  | nil => intro _; exact ⟨[], rfl, by simp⟩
  | cons idx rest ih =>
    intro hmaps
    obtain ⟨r, idx1, hstep⟩ := updateDocInIndex_defined w idx m (hmaps idx (List.mem_cons_self _ _))
    obtain ⟨rest', hrest, hmaps'⟩ := ih fun x hx => hmaps x (List.mem_cons_of_mem _ hx)
    refine ⟨idx1 :: rest', by simp [addMappableLoop, hstep, hrest], ?_⟩
    intro x hx
    rcases List.mem_cons.mp hx with rfl | hx
    · rw [updateDocInIndex_map w idx _ m r hstep]
      exact hmaps idx (List.mem_cons_self _ _)
    · exact hmaps' x hx

/-- The enumeration loop logs every document and updates each index with all of them. -/
theorem addDocuments_spec (w : RowWriter) (docs : List Document) :
    ∀ (self self' : MapReduceIndexer), addDocuments w docs self = some self' →
      self'.added = self.added ++ docs ∧
      List.Forall₂ (fun a b => updateDocs w docs a = some b) self._indexes self'._indexes ∧
      self'._finished = self._finished ∧ self'._triggerIndex = self._triggerIndex ∧
      self'._lastSequences = self._lastSequences := by
  induction docs with
  | nil =>
    intro self self' h
    simp only [addDocuments] at h
    cases h
    refine ⟨by simp, ?_, rfl, rfl, rfl⟩
    exact List.forall₂_same.mpr fun _ _ => rfl
  | cons d ds ih =>
    intro self self' h
    simp only [addDocuments] at h
    cases hstep : addDocument w self d with
    | none => simp [hstep] at h
    | some self1 =>
      simp only [hstep] at h
      obtain ⟨hadded, hidx, hfin, htrig, hseqs⟩ := ih self1 self' h
      simp only [addDocument, addMappable, Option.map_eq_some'] at hstep
      obtain ⟨idxs1, hloop, hself1⟩ := hstep
      subst hself1
      refine ⟨by simp [hadded], ?_, hfin, htrig, hseqs⟩
      refine forall₂_chain (addMappableLoop_spec w _ _ _ hloop) hidx ?_
      intro a b c _ hab hbc
      obtain ⟨r, hr⟩ := hab
      simp [updateDocs, hr, hbc]

/-- With every map set, the enumeration loop completes. -/
theorem addDocuments_defined (w : RowWriter) (docs : List Document) :
    ∀ (self : MapReduceIndexer), (∀ idx ∈ self._indexes, idx._map.isSome = true) →
      ∃ self', addDocuments w docs self = some self' := by
  induction docs with
  | nil => intro self _; exact ⟨self, rfl⟩
  | cons d ds ih =>
    intro self hmaps
    obtain ⟨idxs1, hloop, hmaps1⟩ := addMappableLoop_defined w { document := d } _ hmaps
    obtain ⟨self', h⟩ := ih { self with added := self.added ++ [d], _indexes := idxs1 } hmaps1
    exact ⟨self', by simp [addDocuments, addDocument, addMappable, hloop, h]⟩

end MapReduceIndexer

end forestdb

namespace forestdb

/-- Unfolding `startOf` by one index. -/
theorem startOf_cons (latest s : Nat) (seqs : List Nat) (start : Nat) :
    startOf latest (s :: seqs) start =
      startOf latest seqs (if s < latest then min start (wrap64 (s + 1)) else start) := rfl

/-- The computed start sequence never exceeds the initial one. -/
theorem startOf_le_start (latest : Nat) (seqs : List Nat) :
    ∀ start, startOf latest seqs start ≤ start := by
  induction seqs with
  | nil => intro start; exact Nat.le_refl _
  | cons s seqs ih =>
    intro start
    rw [startOf_cons]
    refine Nat.le_trans (ih _) ?_
    split
    · exact Nat.min_le_left _ _
    · exact Nat.le_refl _

/-- The computed start sequence is at most the successor of every index that is behind. -/
theorem startOf_le (latest : Nat) (seqs : List Nat) :
    ∀ start, ∀ s ∈ seqs, s < latest → startOf latest seqs start ≤ wrap64 (s + 1) := by
  induction seqs with
  | nil => intro start s hs; cases hs
  | cons s0 seqs ih =>
    intro start s hs hlt
    rw [startOf_cons]
    rcases List.mem_cons.mp hs with rfl | hs
    · rw [if_pos hlt]
      exact Nat.le_trans (startOf_le_start _ _ _) (Nat.min_le_right _ _)
    · exact ih _ s hs hlt

/-- The computed start sequence is the initial one or the successor of an index behind. -/
theorem startOf_mem (latest : Nat) (seqs : List Nat) :
    ∀ start, startOf latest seqs start = start ∨
      ∃ s ∈ seqs, s < latest ∧ startOf latest seqs start = wrap64 (s + 1) := by
  induction seqs with
  | nil => intro start; exact Or.inl rfl
  | cons s0 seqs ih =>
    intro start
    rw [startOf_cons]
    by_cases hlt : s0 < latest
    · rw [if_pos hlt]
      rcases ih (min start (wrap64 (s0 + 1))) with h | ⟨s, hs, hslt, h⟩
      · rcases Nat.le_total start (wrap64 (s0 + 1)) with hle | hle
        · left; rw [h, Nat.min_eq_left hle]
        · right
          exact ⟨s0, List.mem_cons_self _ _, hlt, by rw [h, Nat.min_eq_right hle]⟩
      · right
        exact ⟨s, List.mem_cons_of_mem _ hs, hslt, h⟩
    · rw [if_neg hlt]
      rcases ih start with h | ⟨s, hs, hslt, h⟩
      · exact Or.inl h
      · exact Or.inr ⟨s, List.mem_cons_of_mem _ hs, hslt, h⟩

namespace MapReduceIndexer

/-- What the first loop of `run` has done when it ends without `return false`. -/
theorem findStartSequence_spec (latest : Nat) (trigger : Option Nat) :
    ∀ (idxs : List MapReduceIndex) (i start : Nat) (acc : List Nat) (r : StartScan),
      findStartSequence latest trigger i idxs start acc = some r → r.aborted = false →
      ∃ ps : List (Nat × MapReduceIndex),
        List.Forall₂ (fun idx p => idx.lastSequenceIndexed = some p) idxs ps ∧
        r.startSequence = startOf latest (ps.map Prod.fst) start ∧
        r.indexes = ps.map Prod.snd ∧ r.lastSequences = acc ++ ps.map Prod.fst := by
  intro idxs
  induction idxs with
  | nil =>
    intro i start acc r h _
    simp only [findStartSequence] at h
    cases h
    exact ⟨[], List.Forall₂.nil, rfl, rfl, by simp⟩
  | cons idx rest ih =>
    intro i start acc r h hab
    simp only [findStartSequence] at h
    cases hread : idx.lastSequenceIndexed with
    | none => simp [hread] at h
    | some p =>
      obtain ⟨s, idx0⟩ := p
      simp only [hread] at h
      by_cases hlt : s < latest
      · simp only [hlt, if_true, Option.map_eq_some'] at h
        obtain ⟨r0, hr0, hr⟩ := h
        subst hr
        obtain ⟨ps, hps, hstart, hidx, hseqs⟩ := ih _ _ _ r0 hr0 hab
        refine ⟨(s, idx0) :: ps, List.Forall₂.cons hread hps, ?_, ?_, ?_⟩
        · simp [startOf_cons, hlt, hstart]
        · simp [hidx]
        · simp [hseqs]
      · simp only [hlt, if_false] at h
        by_cases htrig : trigger = some i
        · simp only [htrig, if_true] at h
          cases h
          simp at hab
        · simp only [htrig, if_false, Option.map_eq_some'] at h
          obtain ⟨r0, hr0, hr⟩ := h
          subst hr
          obtain ⟨ps, hps, hstart, hidx, hseqs⟩ := ih _ _ _ r0 hr0 hab
          refine ⟨(s, idx0) :: ps, List.Forall₂.cons hread hps, ?_, ?_, ?_⟩
          · simp [startOf_cons, hlt, hstart]
          · simp [hidx]
          · simp [hseqs]

/-- The first loop of `run` completes without `return false` when every index can be read
and the trigger index, if any, is behind. -/
theorem findStartSequence_complete (latest : Nat) (trigger : Option Nat) :
    ∀ (idxs : List MapReduceIndex) (ps : List (Nat × MapReduceIndex)),
      List.Forall₂ (fun idx p => idx.lastSequenceIndexed = some p) idxs ps →
      ∀ (i start : Nat) (acc : List Nat),
        (∀ j p, trigger = some (i + j) → ps[j]? = some p → p.1 < latest) →
        findStartSequence latest trigger i idxs start acc =
          some { aborted := false
                 startSequence := startOf latest (ps.map Prod.fst) start
                 indexes := ps.map Prod.snd
                 lastSequences := acc ++ ps.map Prod.fst } := by
  intro idxs ps h
  induction h with
  | nil => intro i start acc _; simp [findStartSequence, startOf]
  | @cons idx p rest ps hread _ ih =>
    intro i start acc htrig
    obtain ⟨s, idx0⟩ := p
    have htail : ∀ j p, trigger = some (i + 1 + j) → ps[j]? = some p → p.1 < latest := by
      intro j p hj hp
      exact htrig (j + 1) p (by rw [hj]; congr 1; omega) (by simpa using hp)
    simp only [findStartSequence, hread]
    by_cases hlt : s < latest
    · simp [hlt, ih (i + 1) _ _ htail, startOf_cons]
    · have hnot : trigger ≠ some i := by
        intro ht
        exact hlt (htrig 0 (s, idx0) (by simpa using ht) (by simp))
      simp [hlt, hnot, ih (i + 1) _ _ htail, startOf_cons]

end MapReduceIndexer

end forestdb

namespace forestdb

/-- The accessor `lastSequenceIndexed()` returns the refreshed field and changes neither the
store, nor the call log, nor the map. -/
theorem lastSequenceIndexed_frame (idx : MapReduceIndex) (p : Nat × MapReduceIndex)
    (h : idx.lastSequenceIndexed = some p) :
    p.2._lastSequenceIndexed = p.1 ∧ p.2.store = idx.store ∧ p.2.calls = idx.calls ∧
      p.2._map = idx._map := by
  simp only [MapReduceIndex.lastSequenceIndexed, Option.map_eq_some'] at h
  obtain ⟨s1, hs1, hp⟩ := h
  subst hp
  obtain ⟨hst, hcalls, hmap, -⟩ := MapReduceIndex.readState_frame idx s1 hs1
  exact ⟨rfl, hst, hcalls, hmap⟩

/-- With every document at or below `lastSequence`, enumerating up to `UINT64_MAX` with
deleted documents included yields the documents from `start` through `lastSequence`. -/
theorem enumerate_eq_filter (store : SourceStore) (start : Nat)
    (hlast : ∀ d ∈ store.docs, d.sequence ≤ store.lastSequence)
    (hbound : store.lastSequence + 1 < 2 ^ 64) :
    DocEnumerator.enumerate store start UINT64_MAX
        { DocEnumerator.Options.kDefault with includeDeleted := true } =
      store.docs.filter fun d =>
        decide (start ≤ d.sequence) && decide (d.sequence ≤ store.lastSequence) := by
  unfold DocEnumerator.enumerate
  apply List.filter_congr
  intro d hd
  have h1 := hlast d hd
  have h2 : d.sequence ≤ UINT64_MAX := by
    have : UINT64_MAX = 2 ^ 64 - 1 := rfl
    omega
  simp [h1, h2]

/-- Every right-hand element of a position-wise relation has a left-hand partner. -/
theorem forall₂_mem_right {α β : Type} {R : α → β → Prop} {as : List α} {bs : List β}
    (h : List.Forall₂ R as bs) {b : β} (hb : b ∈ bs) : ∃ a ∈ as, R a b := by
  induction h with
  | nil => cases hb
  | cons hab _ ih =>
    rcases List.mem_cons.mp hb with rfl | hb
    · exact ⟨_, List.mem_cons_self _ _, hab⟩
    · obtain ⟨a, ha, hr⟩ := ih hb
      exact ⟨a, List.mem_cons_of_mem _ ha, hr⟩

namespace MapReduceIndexer

/-- What a run that returns true has done. -/
theorem run_true (w : RowWriter) (ix ix' : MapReduceIndexer) (first : MapReduceIndex)
    (rest : List MapReduceIndex) (hix : ix._indexes = first :: rest)
    (hrun : run w ix = some (true, ix')) :
    ∃ (ps : List (Nat × MapReduceIndex)) (mid : MapReduceIndexer),
      List.Forall₂ (fun idx p => idx.lastSequenceIndexed = some p) ix._indexes ps ∧
      startOf first._sourceDatabase.lastSequence (ps.map Prod.fst)
          (wrap64 (first._sourceDatabase.lastSequence + 1)) ≤
        first._sourceDatabase.lastSequence ∧
      addDocuments w
          (DocEnumerator.enumerate first._sourceDatabase
            (startOf first._sourceDatabase.lastSequence (ps.map Prod.fst)
              (wrap64 (first._sourceDatabase.lastSequence + 1)))
            UINT64_MAX { DocEnumerator.Options.kDefault with includeDeleted := true })
          { ix with _indexes := ps.map Prod.snd
                    _lastSequences := ix._lastSequences ++ ps.map Prod.fst } = some mid ∧
      ix' = { mid with _finished := true } := by
  unfold run at hrun
  rw [hix] at hrun
  simp only [MapReduceIndex.sourceStore] at hrun
  rw [← hix] at hrun
  split at hrun
  · cases hrun
  · next scan hscan =>
    cases hab : scan.aborted with
    | true => simp [hab] at hrun
    | false =>
      simp only [hab, Bool.false_eq_true, if_false] at hrun
      obtain ⟨ps, hps, hstart, hidx, hseqs⟩ :=
        findStartSequence_spec _ _ _ _ _ _ scan hscan hab
      by_cases hgt : scan.startSequence > first._sourceDatabase.lastSequence
      · simp [hgt] at hrun
      · simp only [hgt, if_false] at hrun
        rw [hstart, hidx, hseqs] at hrun
        rw [hstart] at hgt
        split at hrun
        · cases hrun
        · next mid hmid =>
          simp only [Option.some.injEq, Prod.mk.injEq, true_and] at hrun
          exact ⟨ps, mid, hps, Nat.le_of_not_lt hgt, hmid, hrun.symm⟩

/-- A run reaches the scan and returns true when every index can be read, every map is set,
the trigger index (if any) is behind and the computed start sequence is not past the store's
last sequence. -/
theorem run_complete (w : RowWriter) (ix : MapReduceIndexer) (first : MapReduceIndex)
    (rest : List MapReduceIndex) (hix : ix._indexes = first :: rest)
    (ps : List (Nat × MapReduceIndex))
    (hread : List.Forall₂ (fun idx p => idx.lastSequenceIndexed = some p) ix._indexes ps)
    (hmaps : ∀ idx ∈ ix._indexes, idx._map.isSome = true)
    (htrigger : ∀ t p, ix._triggerIndex = some t → ps[t]? = some p →
      p.1 < first._sourceDatabase.lastSequence)
    (hstart : startOf first._sourceDatabase.lastSequence (ps.map Prod.fst)
        (wrap64 (first._sourceDatabase.lastSequence + 1)) ≤
      first._sourceDatabase.lastSequence) :
    ∃ mid, addDocuments w
        (DocEnumerator.enumerate first._sourceDatabase
          (startOf first._sourceDatabase.lastSequence (ps.map Prod.fst)
            (wrap64 (first._sourceDatabase.lastSequence + 1)))
          UINT64_MAX { DocEnumerator.Options.kDefault with includeDeleted := true })
        { ix with _indexes := ps.map Prod.snd
                  _lastSequences := ix._lastSequences ++ ps.map Prod.fst } = some mid ∧
      run w ix = some (true, { mid with _finished := true }) := by
  have hscan := findStartSequence_complete first._sourceDatabase.lastSequence ix._triggerIndex
    ix._indexes ps hread 0 (wrap64 (first._sourceDatabase.lastSequence + 1)) ix._lastSequences
    (by intro j p hj hp; exact htrigger j p (by simpa using hj) hp)
  have hmaps' : ∀ idx ∈ ps.map Prod.snd, idx._map.isSome = true := by
    intro idx hidx
    obtain ⟨p, hp, rfl⟩ := List.mem_map.mp hidx
    obtain ⟨a, ha, hrd⟩ := forall₂_mem_right hread hp
    rw [(lastSequenceIndexed_frame _ _ hrd).2.2.2]
    exact hmaps a ha
  obtain ⟨mid, hmid⟩ := addDocuments_defined w
    (DocEnumerator.enumerate first._sourceDatabase
      (startOf first._sourceDatabase.lastSequence (ps.map Prod.fst)
        (wrap64 (first._sourceDatabase.lastSequence + 1)))
      UINT64_MAX { DocEnumerator.Options.kDefault with includeDeleted := true })
    { ix with _indexes := ps.map Prod.snd
              _lastSequences := ix._lastSequences ++ ps.map Prod.fst } hmaps'
  refine ⟨mid, hmid, ?_⟩
  unfold run
  rw [hix]
  simp only [MapReduceIndex.sourceStore]
  rw [← hix, hscan]
  simp only [Bool.false_eq_true, if_false, gt_iff_lt, Nat.not_lt.mpr hstart, hmid]

end MapReduceIndexer

end forestdb

namespace forestdb

/-- Below `2 ^ 64` the reduction to `uint64_t` does nothing. -/
theorem wrap64_of_lt (n : Nat) (h : n < 2 ^ 64) : wrap64 n = n := Nat.mod_eq_of_lt h

namespace MapReduceIndexer

/-! ## The coordinated scan -/

/-- Claim C9: in a run that reaches the scan and returns true, over a source store whose
documents have strictly ascending sequences none above `lastSequence`, every managed index
`i` with `lastSequenceIndexed()` equal to `s` at the start of the run makes, in document
order, exactly the calls of one applied update (the map call unless the document is a
tombstone, then one row-writer call) for each source document with sequence in
`(s, lastSequence]`, and no call for any other document; an index that is already caught
up comes out exactly as its `lastSequenceIndexed()` accessor left it, with the same store
and call log as before the run. -/
theorem run_applies_each_document_once (w : RowWriter) (ix ix' : MapReduceIndexer)
    (first : MapReduceIndex) (rest : List MapReduceIndex) (hix : ix._indexes = first :: rest)
    (hsorted : first._sourceDatabase.docs.Pairwise fun a b => a.sequence < b.sequence)
    (hlast : ∀ d ∈ first._sourceDatabase.docs,
      d.sequence ≤ first._sourceDatabase.lastSequence)
    (hbound : first._sourceDatabase.lastSequence + 1 < 2 ^ 64)
    (hrun : run w ix = some (true, ix')) :
    List.Forall₂
      (fun idx idx' => ∃ s idx0, idx.lastSequenceIndexed = some (s, idx0) ∧
        idx'.calls = idx.calls ++
          (first._sourceDatabase.docs.filter fun d =>
            decide (s < d.sequence) &&
              decide (d.sequence ≤ first._sourceDatabase.lastSequence)).flatMap
            (callsFor idx._map) ∧
        (first._sourceDatabase.lastSequence ≤ s →
          idx' = idx0 ∧ idx'.store = idx.store ∧ idx'.calls = idx.calls))
      ix._indexes ix'._indexes := by
  obtain ⟨ps, mid, hps, hstart, hmid, hix'⟩ := run_true w ix ix' first rest hix hrun
  obtain ⟨-, hidx, -⟩ := addDocuments_spec w _ _ _ hmid
  have hidx' : List.Forall₂
      (fun (p : Nat × MapReduceIndex) b => updateDocs w
        (DocEnumerator.enumerate first._sourceDatabase
          (startOf first._sourceDatabase.lastSequence (ps.map Prod.fst)
            (wrap64 (first._sourceDatabase.lastSequence + 1)))
          UINT64_MAX { DocEnumerator.Options.kDefault with includeDeleted := true }) p.2 = some b)
      ps mid._indexes := List.forall₂_map_left_iff.mp hidx
  subst hix'
  refine forall₂_chain hps hidx' ?_
  intro a p c hp ha hc
  obtain ⟨hplast, hpstore, hpcalls, hpmap⟩ := lastSequenceIndexed_frame a p ha
  rw [enumerate_eq_filter _ _ hlast hbound] at hc
  obtain ⟨hcalls, -, hsame⟩ := updateDocs_calls w _ p.2 c hc (hsorted.filter _)
  refine ⟨p.1, p.2, ha, ?_, ?_⟩
  · rw [hcalls, hpcalls, hpmap, hplast, List.filter_filter]
    congr 2
    apply List.filter_congr
    intro d hd
    have hdl := hlast d hd
    by_cases hlt : p.1 < d.sequence
    · have hbehind : p.1 < first._sourceDatabase.lastSequence := Nat.lt_of_lt_of_le hlt hdl
      have hle := startOf_le first._sourceDatabase.lastSequence (ps.map Prod.fst)
        (wrap64 (first._sourceDatabase.lastSequence + 1)) p.1
        (List.mem_map_of_mem _ hp) hbehind
      have hw : wrap64 (p.1 + 1) = p.1 + 1 := wrap64_of_lt _ (by omega)
      rw [hw] at hle
      have hsd : startOf first._sourceDatabase.lastSequence (ps.map Prod.fst)
          (wrap64 (first._sourceDatabase.lastSequence + 1)) ≤ d.sequence := by omega
      simp [hlt, hdl, hsd]
    · simp [hlt]
  · intro hcaught
    have hc' : c = p.2 := by
      apply hsame
      intro d hd
      have hdl := hlast d (List.mem_filter.mp hd).1
      omega
    rw [hc']
    exact ⟨rfl, hpstore, hpcalls⟩

/-- Instance of C9: two indexes caught up to 10 and 5 over a store whose last sequence is
10.  The scan hands over the documents 6 to 10, the second index applies each of them once
(document 7 is a tombstone: no map call), and the first index is unchanged. -/
theorem run_applies_each_document_once_witness :
    ∃ ix', twoIndexes._indexes = [caughtUpTo 10, caughtUpTo 5] ∧
      (tenDocs.docs.Pairwise fun a b => a.sequence < b.sequence) ∧
      (∀ d ∈ tenDocs.docs, d.sequence ≤ tenDocs.lastSequence) ∧
      tenDocs.lastSequence + 1 < 2 ^ 64 ∧
      run IndexWriter.update twoIndexes = some (true, ix') ∧
      List.Forall₂
        (fun idx idx' => ∃ s idx0, idx.lastSequenceIndexed = some (s, idx0) ∧
          idx'.calls = idx.calls ++
            (tenDocs.docs.filter fun d =>
              decide (s < d.sequence) && decide (d.sequence ≤ tenDocs.lastSequence)).flatMap
              (callsFor idx._map) ∧
          (tenDocs.lastSequence ≤ s →
            idx' = idx0 ∧ idx'.store = idx.store ∧ idx'.calls = idx.calls))
        twoIndexes._indexes ix'._indexes ∧
      ix'.added.map (fun d => d.sequence) = [6, 7, 8, 9, 10] ∧
      ix'._indexes.head? = some (caughtUpTo 10) ∧
      ix'._indexes.map (fun idx => idx._lastSequenceIndexed) = [10, 10] ∧
      ix'._indexes.map (fun idx => idx.calls) =
        [[], [Call.map (sampleDoc "d6" 6 false),
              Call.update "d6" 6 [[Item.str "a"]] [[Item.num 6]],
              Call.update "d7" 7 [] [],
              Call.map (sampleDoc "d8" 8 false),
              Call.update "d8" 8 [[Item.str "a"]] [[Item.num 8]],
              Call.map (sampleDoc "d9" 9 false),
              Call.update "d9" 9 [[Item.str "a"]] [[Item.num 9]],
              Call.map (sampleDoc "d10" 10 false),
              Call.update "d10" 10 [[Item.str "a"]] [[Item.num 10]]]] := by
  have hsorted : tenDocs.docs.Pairwise fun a b => a.sequence < b.sequence := by
    simp [tenDocs, sampleDoc]
  have hlast : ∀ d ∈ tenDocs.docs, d.sequence ≤ tenDocs.lastSequence := by
    simp [tenDocs, sampleDoc]
  obtain ⟨ix', hrun, h1, h2, h3, h4⟩ :
      ∃ ix', run IndexWriter.update twoIndexes = some (true, ix') ∧
        ix'.added.map (fun d => d.sequence) = [6, 7, 8, 9, 10] ∧
        ix'._indexes.head? = some (caughtUpTo 10) ∧
        ix'._indexes.map (fun idx => idx._lastSequenceIndexed) = [10, 10] ∧
        ix'._indexes.map (fun idx => idx.calls) =
          [[], [Call.map (sampleDoc "d6" 6 false),
                Call.update "d6" 6 [[Item.str "a"]] [[Item.num 6]],
                Call.update "d7" 7 [] [],
                Call.map (sampleDoc "d8" 8 false),
                Call.update "d8" 8 [[Item.str "a"]] [[Item.num 8]],
                Call.map (sampleDoc "d9" 9 false),
                Call.update "d9" 9 [[Item.str "a"]] [[Item.num 9]],
                Call.map (sampleDoc "d10" 10 false),
                Call.update "d10" 10 [[Item.str "a"]] [[Item.num 10]]]] :=
    ⟨_, rfl, rfl, rfl, rfl, rfl⟩
  exact ⟨ix', rfl, hsorted, hlast, by decide, hrun,
    run_applies_each_document_once IndexWriter.update twoIndexes ix' (caughtUpTo 10)
      [caughtUpTo 5] rfl hsorted hlast (by decide) hrun,
    h1, h2, h3, h4⟩

/-- Claim C10: for a non-empty list of indexes that can all be read and have their maps set,
with at least one index behind the store's last sequence and no caught-up trigger index, the
run reaches the scan and returns true; its start sequence is the minimum of
`lastSequenceIndexed + 1` over the indexes that are behind; the documents passed to
`addDocument` are exactly the source documents with sequence from the start sequence through
the last sequence, tombstones included, in ascending sequence order; and each of these
documents reaches every index: every index comes out as the result of `updateDocInIndex`
called with exactly these documents, in this order, on what its `lastSequenceIndexed()`
accessor left, and its call log grows by the map and row-writer calls for those of them
above its own sequence. -/
theorem run_scans_from_minimum (w : RowWriter) (ix : MapReduceIndexer)
    (first : MapReduceIndex) (rest : List MapReduceIndex) (hix : ix._indexes = first :: rest)
    (ps : List (Nat × MapReduceIndex))
    (hread : List.Forall₂ (fun idx p => idx.lastSequenceIndexed = some p) ix._indexes ps)
    (hmaps : ∀ idx ∈ ix._indexes, idx._map.isSome = true)
    (hbehind : ∃ p ∈ ps, p.1 < first._sourceDatabase.lastSequence)
    (htrigger : ∀ t p, ix._triggerIndex = some t → ps[t]? = some p →
      p.1 < first._sourceDatabase.lastSequence)
    (hsorted : first._sourceDatabase.docs.Pairwise fun a b => a.sequence < b.sequence)
    (hlast : ∀ d ∈ first._sourceDatabase.docs,
      d.sequence ≤ first._sourceDatabase.lastSequence)
    (hbound : first._sourceDatabase.lastSequence + 1 < 2 ^ 64) :
    ∃ start scan ix',
      findStartSequence first._sourceDatabase.lastSequence ix._triggerIndex 0 ix._indexes
        (wrap64 (first._sourceDatabase.lastSequence + 1)) ix._lastSequences = some scan ∧
      scan.aborted = false ∧ scan.startSequence = start ∧
      run w ix = some (true, ix') ∧
      start ∈ (ps.filter fun p => decide (p.1 < first._sourceDatabase.lastSequence)).map
        (fun p => p.1 + 1) ∧
      (∀ x ∈ (ps.filter fun p => decide (p.1 < first._sourceDatabase.lastSequence)).map
        (fun p => p.1 + 1), start ≤ x) ∧
      ix'.added = ix.added ++ first._sourceDatabase.docs.filter (fun d =>
        decide (start ≤ d.sequence) &&
          decide (d.sequence ≤ first._sourceDatabase.lastSequence)) ∧
      (first._sourceDatabase.docs.filter fun d =>
        decide (start ≤ d.sequence) &&
          decide (d.sequence ≤ first._sourceDatabase.lastSequence)).Pairwise
        (fun a b => a.sequence < b.sequence) ∧
      List.Forall₂
        (fun idx idx' => ∃ s idx0, idx.lastSequenceIndexed = some (s, idx0) ∧
          updateDocs w
            (first._sourceDatabase.docs.filter fun d =>
              decide (start ≤ d.sequence) &&
                decide (d.sequence ≤ first._sourceDatabase.lastSequence)) idx0 = some idx' ∧
          idx'.calls = idx.calls ++
            ((first._sourceDatabase.docs.filter fun d =>
              decide (start ≤ d.sequence) &&
                decide (d.sequence ≤ first._sourceDatabase.lastSequence)).filter fun d =>
              decide (s < d.sequence)).flatMap (callsFor idx._map))
        ix._indexes ix'._indexes := by
  have hsucc : ∀ p ∈ ps, p.1 < first._sourceDatabase.lastSequence →
      startOf first._sourceDatabase.lastSequence (ps.map Prod.fst)
        (wrap64 (first._sourceDatabase.lastSequence + 1)) ≤ p.1 + 1 := by
    intro p hp hlt
    have hle := startOf_le first._sourceDatabase.lastSequence (ps.map Prod.fst)
      (wrap64 (first._sourceDatabase.lastSequence + 1)) p.1 (List.mem_map_of_mem _ hp) hlt
    have hw : wrap64 (p.1 + 1) = p.1 + 1 := wrap64_of_lt _ (by omega)
    rw [hw] at hle
    exact hle
  have hstart : startOf first._sourceDatabase.lastSequence (ps.map Prod.fst)
      (wrap64 (first._sourceDatabase.lastSequence + 1)) ≤
      first._sourceDatabase.lastSequence := by
    obtain ⟨p, hp, hlt⟩ := hbehind
    have := hsucc p hp hlt
    omega
  have hscan := findStartSequence_complete first._sourceDatabase.lastSequence ix._triggerIndex
    ix._indexes ps hread 0 (wrap64 (first._sourceDatabase.lastSequence + 1)) ix._lastSequences
    (by intro j p hj hp; exact htrigger j p (by simpa using hj) hp)
  obtain ⟨mid, hmid, hrun⟩ := run_complete w ix first rest hix ps hread hmaps htrigger hstart
  obtain ⟨hadded, hidx, -⟩ := addDocuments_spec w _ _ _ hmid
  rw [enumerate_eq_filter _ _ hlast hbound] at hadded hidx
  have hidx' : List.Forall₂
      (fun (p : Nat × MapReduceIndex) b => updateDocs w
        (first._sourceDatabase.docs.filter fun d =>
          decide (startOf first._sourceDatabase.lastSequence (ps.map Prod.fst)
            (wrap64 (first._sourceDatabase.lastSequence + 1)) ≤ d.sequence) &&
            decide (d.sequence ≤ first._sourceDatabase.lastSequence)) p.2 = some b)
      ps mid._indexes := List.forall₂_map_left_iff.mp hidx
  refine ⟨_, _, _, hscan, rfl, rfl, hrun, ?_, ?_, hadded, hsorted.filter _, ?_⟩
  · rcases startOf_mem first._sourceDatabase.lastSequence (ps.map Prod.fst)
      (wrap64 (first._sourceDatabase.lastSequence + 1)) with h | ⟨s, hs, hlt, h⟩
    · have hw : wrap64 (first._sourceDatabase.lastSequence + 1) =
          first._sourceDatabase.lastSequence + 1 := wrap64_of_lt _ hbound
      rw [hw] at h hstart
      omega
    · obtain ⟨p, hp, rfl⟩ := List.mem_map.mp hs
      have hw : wrap64 (p.1 + 1) = p.1 + 1 := wrap64_of_lt _ (by omega)
      rw [hw] at h
      exact List.mem_map.mpr ⟨p, List.mem_filter.mpr ⟨hp, by simpa using hlt⟩, h.symm⟩
  · intro x hx
    obtain ⟨p, hp, rfl⟩ := List.mem_map.mp hx
    obtain ⟨hp1, hp2⟩ := List.mem_filter.mp hp
    exact hsucc p hp1 (by simpa using hp2)
  · refine forall₂_chain hread hidx' ?_
    intro a p c _ ha hc
    obtain ⟨hplast, -, hpcalls, hpmap⟩ := lastSequenceIndexed_frame a p ha
    obtain ⟨hcalls, -, -⟩ := updateDocs_calls w _ p.2 c hc (hsorted.filter _)
    refine ⟨p.1, p.2, ha, hc, ?_⟩
    rw [hcalls, hpcalls, hpmap, hplast]

/-- Instance of C10: two indexes caught up to 10 and 5 over a store whose last sequence is
10; the scan starts at 6 and hands over the documents 6 to 10, the tombstone 7 included.
Both indexes receive them: the first, already at 10, rejects each; the second applies each
and ends at sequence 10 with four rows and nine collaborator calls. -/
theorem run_scans_from_minimum_witness :
    ∃ scan ix',
      findStartSequence tenDocs.lastSequence twoIndexes._triggerIndex 0 twoIndexes._indexes
        (wrap64 (tenDocs.lastSequence + 1)) twoIndexes._lastSequences = some scan ∧
      scan.aborted = false ∧ scan.startSequence = 6 ∧
      run IndexWriter.update twoIndexes = some (true, ix') ∧
      ix'.added =
        [sampleDoc "d6" 6 false, sampleDoc "d7" 7 true, sampleDoc "d8" 8 false,
         sampleDoc "d9" 9 false, sampleDoc "d10" 10 false] ∧
      List.Forall₂
        (fun idx idx' => ∃ s idx0, idx.lastSequenceIndexed = some (s, idx0) ∧
          updateDocs IndexWriter.update
            [sampleDoc "d6" 6 false, sampleDoc "d7" 7 true, sampleDoc "d8" 8 false,
             sampleDoc "d9" 9 false, sampleDoc "d10" 10 false] idx0 = some idx' ∧
          idx'.calls = idx.calls ++
            ([sampleDoc "d6" 6 false, sampleDoc "d7" 7 true, sampleDoc "d8" 8 false,
              sampleDoc "d9" 9 false, sampleDoc "d10" 10 false].filter fun d =>
              decide (s < d.sequence)).flatMap (callsFor idx._map))
        twoIndexes._indexes ix'._indexes ∧
      ix'._indexes.map (fun idx =>
          (idx._lastSequenceIndexed, idx._rowCount, idx.store.rows.length, idx.calls.length)) =
        [(10, 0, 0, 0), (10, 4, 4, 9)] := by
  obtain ⟨start, scan, ix', h1, h2, h3, h4, h5, -, h7, -, h9⟩ :=
    run_scans_from_minimum IndexWriter.update twoIndexes (caughtUpTo 10) [caughtUpTo 5] rfl
      [(10, caughtUpTo 10), (5, caughtUpTo 5)]
      (List.Forall₂.cons rfl (List.Forall₂.cons rfl List.Forall₂.nil))
      (by intro idx h; simp only [twoIndexes, MapReduceIndexer.new, List.mem_cons,
            List.mem_singleton, List.not_mem_nil, or_false] at h; rcases h with rfl | rfl <;> rfl)
      ⟨(5, caughtUpTo 5), by simp, by decide⟩
      (by intro t p h; cases h)
      (by simp [caughtUpTo, tenDocs, sampleDoc])
      (by simp [caughtUpTo, tenDocs, sampleDoc])
      (by decide)
  have hs : start = 6 := by
    simpa [caughtUpTo, tenDocs] using h5
  subst hs
  have hdocs : ((caughtUpTo 10)._sourceDatabase.docs.filter fun d =>
      decide (6 ≤ d.sequence) &&
        decide (d.sequence ≤ (caughtUpTo 10)._sourceDatabase.lastSequence)) =
      [sampleDoc "d6" 6 false, sampleDoc "d7" 7 true, sampleDoc "d8" 8 false,
       sampleDoc "d9" 9 false, sampleDoc "d10" 10 false] := by decide
  rw [hdocs] at h7 h9
  obtain ⟨ixc, hrunc, hvals⟩ :
      ∃ ixc, run IndexWriter.update twoIndexes = some (true, ixc) ∧
        ixc._indexes.map (fun idx =>
          (idx._lastSequenceIndexed, idx._rowCount, idx.store.rows.length,
            idx.calls.length)) = [(10, 0, 0, 0), (10, 4, 4, 9)] := ⟨_, rfl, rfl⟩
  have heq : ixc = ix' := by
    rw [h4] at hrunc
    cases hrunc
    rfl
  subst heq
  exact ⟨scan, ixc, h1, h2, h3, h4, h7, h9, hvals⟩

end MapReduceIndexer

end forestdb

namespace forestdb

/-! ## Format version, map installation and the persisted map version -/

namespace MapReduceIndex

/-- A new index object on a store without a metadata record has the constructor's defaults. -/
theorem new_without_record (store : KeyStore) (source : SourceStore) (h : store.state = none) :
    MapReduceIndex.new store source =
      some { init store source with _stateReadAt := store.lastSequence } := by
  have hpeek : CollatableReader.peekTag (init store source).store.getState ≠ Tag.kArray := by
    simp [init, KeyStore.getState, h, CollatableReader.peekTag]
  exact readState_not_array (init store source) hpeek

/-- A new index object on a store with an obsolete record has the constructor's defaults. -/
theorem new_obsolete (store : KeyStore) (source : SourceStore) (a b : Int) (v : String)
    (t r : Int) (rest : List Item) (hrec : store.state = some (stateRecord a b v t r rest))
    (hrest : obsoleteTail rest = true) :
    MapReduceIndex.new store source =
      some { init store source with _stateReadAt := store.lastSequence } := by
  by_cases hseq : store.lastSequence = 0
  · have hfresh := readState_fresh (init store source) (by simp [init, hseq])
    rw [MapReduceIndex.new, hfresh]
    simp [init, hseq]
  · exact readState_obsolete (init store source) a b v t r rest hrec hrest
      (fun h => hseq h.symm)

/-- Claim C17: a record whose format version is missing or below 1 is treated as absent.
Whatever its five fields hold, a newly constructed index on a store with such a record has
`lastSequenceIndexed = 0`, `lastSequenceChangedAt = 0`, an empty `lastMapVersion`,
`indexType = 0` and `rowCount = 0`, and apart from the store it sits on it is the very
state a newly constructed index has on the same store without the record. -/
theorem obsolete_record_treated_as_absent (store : KeyStore) (source : SourceStore)
    (a b : Int) (v : String) (t r : Int) (rest : List Item)
    (hrec : store.state = some (stateRecord a b v t r rest))
    (hrest : obsoleteTail rest = true) :
    ∃ s1 s0, MapReduceIndex.new store source = some s1 ∧
      MapReduceIndex.new { store with state := none } source = some s0 ∧
      s1 = { s0 with store := store } ∧
      s1._lastSequenceIndexed = 0 ∧ s1._lastSequenceChangedAt = 0 ∧ s1._lastMapVersion = "" ∧
      s1._indexType = 0 ∧ s1._rowCount = 0 :=
  ⟨_, _, new_obsolete store source a b v t r rest hrec hrest,
    new_without_record { store with state := none } source rfl, rfl, rfl, rfl, rfl, rfl, rfl⟩

/-- Instance of C17: the sample store whose record has no format version. -/
theorem obsolete_record_treated_as_absent_witness :
    obsoleteStore.state = some (stateRecord 3 3 "1" 1 1 [Item.endSequence]) ∧
    obsoleteTail [Item.endSequence] = true ∧
    ∃ s1 s0, MapReduceIndex.new obsoleteStore emptySource = some s1 ∧
      MapReduceIndex.new { obsoleteStore with state := none } emptySource = some s0 ∧
      s1 = { s0 with store := obsoleteStore } ∧
      s1._lastSequenceIndexed = 0 ∧ s1._lastSequenceChangedAt = 0 ∧ s1._lastMapVersion = "" ∧
      s1._indexType = 0 ∧ s1._rowCount = 0 :=
  ⟨rfl, rfl,
    obsolete_record_treated_as_absent obsoleteStore emptySource 3 3 "1" 1 1
      [Item.endSequence] rfl rfl⟩

/-- Claim C18 at a store whose record already names index type 1 and map version "1", and
at an empty store with index type 0 and an empty map version: `setup` with the stored pair
finds nothing to change and leaves `_map` null, so the next `updateDocInIndex` on a live
document with a new sequence dereferences the null pointer (the call fails). -/
theorem setup_leaves_map_unset :
    (∃ s1 s2, MapReduceIndex.new currentStore emptySource = some s1 ∧
      s1._indexType = 1 ∧ s1._lastMapVersion = "1" ∧ s1._lastSequenceIndexed = 5 ∧
      setup s1 1 (some sampleMap) "1" = some s2 ∧ s2._map = none ∧
      updateDocInIndex IndexWriter.update s2 ⟨sampleDoc "d6" 6 false⟩ = none) ∧
    (∃ s1 s2, MapReduceIndex.new emptyStore emptySource = some s1 ∧
      setup s1 0 (some sampleMap) "" = some s2 ∧ s2._map = none ∧
      updateDocInIndex IndexWriter.update s2 ⟨sampleDoc "d1" 1 false⟩ = none) :=
  ⟨⟨_, _, rfl, rfl, rfl, rfl, rfl, rfl, rfl⟩, ⟨_, _, rfl, rfl, rfl, rfl⟩⟩

/-- When `setup` finds a different index type or map version it does install the map. -/
theorem setup_installs_map_on_mismatch (s s1 : MapReduceIndex) (indexType : Int)
    (map : Option MapFn) (mapVersion : String) (h : readState s = some s1)
    (hne : indexType ≠ s1._indexType ∨ mapVersion ≠ s1._lastMapVersion) :
    ∃ s2, setup s indexType map mapVersion = some s2 ∧ s2._map = map ∧
      s2._indexType = indexType ∧ s2._mapVersion = mapVersion := by
  refine ⟨_, by rw [setup_eq s s1 _ _ _ h, if_pos hne], rfl, rfl, rfl⟩

/-- Claim C19 at two concrete flows.  First, a store whose record already names index type
1 and map version "1": after `setup` with that pair and `saveState`, the record's map version
field is the empty string, not "1", because `setup` assigned `_mapVersion` only in its
mismatch branch.  Second, an empty store: after `setup` with (1, "1"), one update and
`saveState`, the record does carry "1" and 1, but it is not an array, so a new index object
reads nothing back, finds the pair different and `setup` resets `lastSequenceIndexed` to 0,
which makes the next run scan from the start. -/
theorem saveState_after_setup_not_recognised :
    (∃ s1 s2 s3 s4, MapReduceIndex.new currentStore emptySource = some s1 ∧
      setup s1 1 (some sampleMap) "1" = some s2 ∧
      (saveState s2).store.state =
        some [Item.num 5, Item.num 5, Item.str "", Item.num 1, Item.num 1, Item.num 1] ∧
      MapReduceIndex.new (saveState s2).store emptySource = some s3 ∧
      s3._indexType = 0 ∧ s3._lastMapVersion = "" ∧
      setup s3 1 (some sampleMap) "1" = some s4 ∧
      s4._stateReadAt = 0 ∧ s4._lastSequenceIndexed = 0) ∧
    (∃ s0 s1 r s2 s3 s4, MapReduceIndex.new emptyStore twoDocs = some s0 ∧
      setup s0 1 (some sampleMap) "1" = some s1 ∧
      updateDocInIndex IndexWriter.update s1 ⟨sampleDoc "d1" 1 false⟩ = some (r, s2) ∧
      s2._lastSequenceIndexed = 1 ∧
      (saveState s2).store.state =
        some [Item.num 1, Item.num 1, Item.str "1", Item.num 1, Item.num 1, Item.num 1] ∧
      MapReduceIndex.new (saveState s2).store twoDocs = some s3 ∧
      s3._indexType = 0 ∧ s3._lastMapVersion = "" ∧ s3._lastSequenceIndexed = 0 ∧
      setup s3 1 (some sampleMap) "1" = some s4 ∧
      s4._stateReadAt = 0 ∧ s4._lastSequenceIndexed = 0 ∧ s4._rowCount = 0 ∧
      s4.store.rows = [Row.mk [Item.str "a"] "d1" 1 [Item.num 1]]) :=
  ⟨⟨_, _, _, _, rfl, rfl, rfl, rfl, rfl, rfl, rfl, rfl, rfl⟩,
   ⟨_, _, _, _, _, _, rfl, rfl, rfl, rfl, rfl, rfl, rfl, rfl, rfl, rfl, rfl, rfl, rfl, rfl⟩⟩

/-! ## The invariant `lastSequenceChangedAt ≤ lastSequenceIndexed` -/

/-- A record written by `saveState` is skipped by `readState`: only `_stateReadAt` moves. -/
theorem readState_of_saved_record (s s0 : MapReduceIndex)
    (h : s.store.state = (saveState s0).store.state) :
    readState s = some { s with _stateReadAt := s.store.lastSequence } := by
  apply readState_not_array
  rw [KeyStore.getState, h, saveState_record]
  simp [CollatableReader.peekTag, Item.tag]

/-- With no record in the store, `readState` moves only `_stateReadAt`. -/
theorem readState_without_record (s : MapReduceIndex) (h : s.store.state = none) :
    readState s = some { s with _stateReadAt := s.store.lastSequence } := by
  apply readState_not_array
  rw [KeyStore.getState, h]
  simp [CollatableReader.peekTag]

/-- The per-document update keeps `lastSequenceChangedAt ≤ lastSequenceIndexed`. -/
theorem updateDocInIndex_changedAt (w : RowWriter) (s s' : MapReduceIndex) (m : Mappable)
    (r : Bool) (hinv : changedAtLeIndexed s) (h : updateDocInIndex w s m = some (r, s')) :
    changedAtLeIndexed s' := by
  unfold changedAtLeIndexed at *
  by_cases hle : m.document.sequence ≤ s._lastSequenceIndexed
  · have e : updateDocInIndex w s m = some (false, s) := by simp [updateDocInIndex, hle]
    rw [e] at h
    cases h
    exact hinv
  · have hlt : s._lastSequenceIndexed < m.document.sequence := Nat.lt_of_not_le hle
    cases hdel : m.document.deleted with
    | true =>
      rw [updateDocInIndex_deleted w s m hlt hdel] at h
      cases h
      simp only
      split <;> omega
    | false =>
      cases hmap : s._map with
      | none =>
        simp [updateDocInIndex, hle, hdel, callMap, hmap, bind, Option.bind] at h
      | some f =>
        rw [updateDocInIndex_live w s m f hlt hdel hmap] at h
        cases h
        simp only
        split <;> omega

/-- Member `setup` keeps the invariant whenever the state its `readState` produces has it. -/
theorem setup_changedAt (s s1 s2 : MapReduceIndex) (indexType : Int) (map : Option MapFn)
    (mapVersion : String) (h : readState s = some s1) (hinv : changedAtLeIndexed s1)
    (hs : setup s indexType map mapVersion = some s2) : changedAtLeIndexed s2 := by
  rw [setup_eq s s1 _ _ _ h] at hs
  split at hs
  · cases hs
    exact Nat.le_refl 0
  · cases hs
    exact hinv

/-- Reading an array record whose `lastSequenceChangedAt` field is at most its
`lastSequenceIndexed` field keeps the invariant. -/
theorem readState_array_changedAt (s s1 : MapReduceIndex) (a b : Int) (v : String)
    (t r version : Int) (rest : List Item)
    (hrec : s.store.state = some (stateRecord a b v t r (Item.num version :: rest)))
    (hb : 0 ≤ b) (hba : b ≤ a) (ha : a < 2 ^ 64) (hinv : changedAtLeIndexed s)
    (h : readState s = some s1) : changedAtLeIndexed s1 := by
  by_cases hfresh : s._stateReadAt = s.store.lastSequence
  · rw [readState_fresh s hfresh] at h
    cases h
    exact hinv
  · have hpeek : CollatableReader.peekTag
        (stateRecord a b v t r (Item.num version :: rest)) = Tag.kArray := rfl
    by_cases hv : kMinFormatVersion ≤ version
    · simp [readState, hfresh, KeyStore.getState, hrec, hpeek,
        decodeState_current s a b v t r version rest hv, bind, Option.bind] at h
      subst h
      unfold changedAtLeIndexed toUInt64
      simp only
      have h1 : b % (2 ^ 64 : Int) = b := Int.emod_eq_of_lt hb (by omega)
      have h2 : a % (2 ^ 64 : Int) = a := Int.emod_eq_of_lt (by omega) ha
      rw [h1, h2]
      omega
    · have hob : obsoleteTail (Item.num version :: rest) = true := by
        simpa [obsoleteTail] using hv
      rw [readState_obsolete s a b v t r _ hrec hob hfresh] at h
      cases h
      exact Nat.le_refl 0

/-- Claim C20: `lastSequenceChangedAt ≤ lastSequenceIndexed` holds for a newly constructed
index on a store without a record, and is preserved by `updateDocInIndex` (for any row
writer), by `setup` (whenever the state its `readState` yields has it, in particular when the
store holds no record or one written by `saveState`), by `erase`, `deleted` and `saveState`,
and by `readState` of a record written by `saveState` (which `readState` skips) as well as of
an array record in the current layout whose two sequence fields satisfy it. -/
theorem changedAt_le_indexed_invariant (w : RowWriter) :
    (∀ store source s, store.state = none → MapReduceIndex.new store source = some s →
      changedAtLeIndexed s) ∧
    (∀ s m r s', changedAtLeIndexed s → updateDocInIndex w s m = some (r, s') →
      changedAtLeIndexed s') ∧
    (∀ s s1 s2 indexType map mapVersion, readState s = some s1 → changedAtLeIndexed s1 →
      setup s indexType map mapVersion = some s2 → changedAtLeIndexed s2) ∧
    (∀ s s0 s2 indexType map mapVersion, changedAtLeIndexed s →
      (s.store.state = none ∨ s.store.state = (saveState s0).store.state) →
      setup s indexType map mapVersion = some s2 → changedAtLeIndexed s2) ∧
    (∀ s, changedAtLeIndexed (erase s)) ∧
    (∀ s, changedAtLeIndexed (deleted s)) ∧
    (∀ s, changedAtLeIndexed s → changedAtLeIndexed (saveState s)) ∧
    (∀ s s0 s1, changedAtLeIndexed s0 → s.store.state = (saveState s0).store.state →
      changedAtLeIndexed s → readState s = some s1 → changedAtLeIndexed s1) ∧
    (∀ s s1 a b v t r version rest,
      s.store.state = some (stateRecord a b v t r (Item.num version :: rest)) →
      0 ≤ b → b ≤ a → a < 2 ^ 64 → changedAtLeIndexed s → readState s = some s1 →
      changedAtLeIndexed s1) := by
  refine ⟨?_, ?_, ?_, ?_, ?_, ?_, ?_, ?_, ?_⟩
  · intro store source s hnone hnew
    rw [new_without_record store source hnone] at hnew
    cases hnew
    exact Nat.le_refl 0
  · intro s m r s' hinv h
    exact updateDocInIndex_changedAt w s s' m r hinv h
  · intro s s1 s2 indexType map mapVersion h hinv hs
    exact setup_changedAt s s1 s2 indexType map mapVersion h hinv hs
  · intro s s0 s2 indexType map mapVersion hinv hrec hs
    have hread : readState s = some { s with _stateReadAt := s.store.lastSequence } := by
      rcases hrec with hnone | hsaved
      · exact readState_without_record s hnone
      · exact readState_of_saved_record s s0 hsaved
    exact setup_changedAt s _ s2 indexType map mapVersion hread hinv hs
  · intro s; exact Nat.le_refl 0
  · intro s; exact Nat.le_refl 0
  · intro s hinv; exact hinv
  · intro s s0 s1 _ hrec hinv h
    rw [readState_of_saved_record s s0 hrec] at h
    cases h
    exact hinv
  · intro s s1 a b v t r version rest hrec hb hba ha hinv h
    exact readState_array_changedAt s s1 a b v t r version rest hrec hb hba ha hinv h

/-- Instance of C20: the sample index (changed at 5, indexed to 5) takes a live document at
sequence 7, and a new index object reads the record the sample index saves. -/
theorem changedAt_le_indexed_invariant_witness :
    changedAtLeIndexed sampleIndex ∧
    (∃ r s', updateDocInIndex IndexWriter.update sampleIndex ⟨sampleDoc "d" 7 false⟩ =
        some (r, s') ∧ changedAtLeIndexed s') ∧
    changedAtLeIndexed (saveState sampleIndex) ∧
    (∃ s1, readState (init (saveState sampleIndex).store emptySource) = some s1 ∧
      changedAtLeIndexed s1) := by
  have hs : changedAtLeIndexed sampleIndex := Nat.le_refl 5
  have hinit : changedAtLeIndexed (init (saveState sampleIndex).store emptySource) :=
    Nat.le_refl 0
  obtain ⟨-, hupd, -, -, -, -, hsave, hread, -⟩ :=
    changedAt_le_indexed_invariant IndexWriter.update
  obtain ⟨r, s', hu⟩ : ∃ r s', updateDocInIndex IndexWriter.update sampleIndex
      ⟨sampleDoc "d" 7 false⟩ = some (r, s') := ⟨_, _, rfl⟩
  obtain ⟨s1, h1⟩ : ∃ s1, readState (init (saveState sampleIndex).store emptySource) =
      some s1 := ⟨_, rfl⟩
  exact ⟨hs, ⟨r, s', hu, hupd _ _ r s' hs hu⟩, hsave _ hs,
    ⟨s1, h1, hread (init (saveState sampleIndex).store emptySource) sampleIndex s1 hs rfl
      hinit h1⟩⟩

end MapReduceIndex

end forestdb

namespace forestdb

/-! ## The row count -/

/-- The store and row count after a per-document update are the row writer's, or unchanged. -/
theorem updateDocInIndex_store (w : RowWriter) (s s' : MapReduceIndex) (m : Mappable) (r : Bool)
    (h : s.updateDocInIndex w m = some (r, s')) :
    s' = s ∨
    (s._lastSequenceIndexed < m.document.sequence ∧
      s'._lastSequenceIndexed = m.document.sequence ∧
      ∃ keys values,
        s'.store = (w s.store m.document.key m.document.sequence keys values s._rowCount).2.1 ∧
        s'._rowCount =
          (w s.store m.document.key m.document.sequence keys values s._rowCount).2.2) := by
  by_cases hle : m.document.sequence ≤ s._lastSequenceIndexed
  · left
    have e : s.updateDocInIndex w m = some (false, s) := by
      simp [MapReduceIndex.updateDocInIndex, hle]
    rw [e] at h
    cases h
    rfl
  · right
    have hlt : s._lastSequenceIndexed < m.document.sequence := Nat.lt_of_not_le hle
    refine ⟨hlt, ?_⟩
    cases hdel : m.document.deleted with
    | true =>
      rw [MapReduceIndex.updateDocInIndex_deleted w s m hlt hdel] at h
      cases h
      exact ⟨rfl, _, _, rfl, rfl⟩
    | false =>
      cases hmap : s._map with
      | none =>
        simp [MapReduceIndex.updateDocInIndex, hle, hdel, MapReduceIndex.callMap, hmap, bind,
          Option.bind] at h
      | some f =>
        rw [MapReduceIndex.updateDocInIndex_live w s m f hlt hdel hmap] at h
        cases h
        exact ⟨rfl, _, _, rfl, rfl⟩

/-- Splitting a list by a test keeps the number of elements. -/
theorem length_filter_add_length_filter_not {α : Type} (p : α → Bool) (l : List α) :
    (l.filter p).length + (l.filter fun x => !p x).length = l.length := by
  induction l with
  | nil => rfl
  | cons x l ih =>
    cases hp : p x <;> simp [List.filter_cons, hp] <;> omega

/-- The sample row writer meets the row-count contract. -/
theorem IndexWriter.update_adjustsRowCount : RowWriter.AdjustsRowCount IndexWriter.update := by
  intro store docKey docSequence keys values rowCount
  simp only [IndexWriter.update]
  split
  · refine ⟨rfl, ((keys.zip values).map fun kv => Row.mk kv.1 docKey docSequence kv.2).length,
      (store.rows.filter fun r => r.docID == docKey).length, List.length_filter_le _ _, ?_, rfl⟩
    have hsplit := length_filter_add_length_filter_not (fun r : Row => r.docID == docKey)
      store.rows
    simp only [List.length_append]
    omega
  · exact ⟨rfl, 0, 0, Nat.zero_le _, rfl, rfl⟩

/-- One call keeps the row-count invariant (no metadata record in the store, `rowCount` equal
to the number of rows, no rows while `lastSequenceIndexed` is 0), and changes `rowCount`
only to 0 or to what the row writer returns. -/
theorem applyOp_rowCount (w : RowWriter) (hw : RowWriter.AdjustsRowCount w)
    (s s' : MapReduceIndex) (op : IndexOp)
    (hstate : s.store.state = none) (hcount : s._rowCount = s.store.rows.length)
    (hzero : s._lastSequenceIndexed = 0 → s.store.rows = [])
    (h : applyOp w s op = some s') :
    (s'.store.state = none ∧ s'._rowCount = s'.store.rows.length ∧
      (s'._lastSequenceIndexed = 0 → s'.store.rows = [])) ∧
    (s'._rowCount = s._rowCount ∨ s'._rowCount = 0 ∨
      ∃ m keys values, op = IndexOp.updateDocInIndex m ∧
        s'._rowCount =
          (w s.store m.document.key m.document.sequence keys values s._rowCount).2.2) := by
  cases op with
  | setup indexType map mapVersion =>
    simp only [applyOp] at h
    rw [MapReduceIndex.setup_eq s _ _ _ _ (MapReduceIndex.readState_without_record s hstate)]
      at h
    split at h
    · cases h
      refine ⟨⟨?_, ?_, ?_⟩, Or.inr (Or.inl rfl)⟩
      · simp only
        split
        · rfl
        · exact hstate
      · simp only
        split
        · rfl
        · next hpos =>
          have hz : s._lastSequenceIndexed = 0 := by
            simp only [gt_iff_lt] at hpos
            omega
          rw [hzero hz]
          rfl
      · intro _
        simp only
        split
        · rfl
        · next hpos =>
          have hz : s._lastSequenceIndexed = 0 := by
            simp only [gt_iff_lt] at hpos
            omega
          exact hzero hz
    · cases h
      exact ⟨⟨hstate, hcount, hzero⟩, Or.inl rfl⟩
  | erase =>
    simp only [applyOp] at h
    cases h
    exact ⟨⟨rfl, rfl, fun _ => rfl⟩, Or.inr (Or.inl rfl)⟩
  | updateDocInIndex m =>
    simp only [applyOp, Option.map_eq_some', Prod.exists, exists_eq_right] at h
    obtain ⟨r, h⟩ := h
    rcases updateDocInIndex_store w s s' m r h with heq | ⟨hlt, hlast, keys, values, hst, hrc⟩
    · subst heq
      exact ⟨⟨hstate, hcount, hzero⟩, Or.inl rfl⟩
    · obtain ⟨hwstate, added, removed, hrem, hrows, hcnt⟩ :=
        hw s.store m.document.key m.document.sequence keys values s._rowCount
      refine ⟨⟨?_, ?_, ?_⟩, Or.inr (Or.inr ⟨m, keys, values, rfl, hrc⟩)⟩
      · rw [hst, hwstate, hstate]
      · rw [hrc, hst, hcnt, hrows, hcount]
      · intro hz
        omega

/-- A sequence of calls keeps the row-count invariant. -/
theorem applyOps_rowCount (w : RowWriter) (hw : RowWriter.AdjustsRowCount w)
    (ops : List IndexOp) :
    ∀ (s s' : MapReduceIndex), s.store.state = none → s._rowCount = s.store.rows.length →
      (s._lastSequenceIndexed = 0 → s.store.rows = []) → applyOps w ops s = some s' →
      s'.store.state = none ∧ s'._rowCount = s'.store.rows.length ∧
        (s'._lastSequenceIndexed = 0 → s'.store.rows = []) := by
  induction ops with
  | nil =>
    intro s s' h1 h2 h3 h
    simp only [applyOps] at h
    cases h
    exact ⟨h1, h2, h3⟩
  | cons op ops ih =>
    intro s s' h1 h2 h3 h
    simp only [applyOps] at h
    cases hop : applyOp w s op with
    | none => simp [hop] at h
    | some s1 =>
      simp only [hop] at h
      obtain ⟨⟨g1, g2, g3⟩, -⟩ := applyOp_rowCount w hw s s1 op h1 h2 h3 hop
      exact ih s1 s' g1 g2 g3 h

namespace MapReduceIndex

/-- Claim C16: with a row writer that leaves the metadata record alone and changes the
stored rows and the passed row count by rows added minus rows removed, a new index on an
empty store has, after any sequence of `setup`, `erase` and `updateDocInIndex` calls, a
`rowCount` equal to the number of rows in its store; and any further such call leaves
`rowCount` as it is, sets it to 0, or sets it to what the row writer returned. -/
theorem rowCount_equals_stored_rows (w : RowWriter) (hw : RowWriter.AdjustsRowCount w)
    (store : KeyStore) (source : SourceStore) (hrows : store.rows = [])
    (hstate : store.state = none) (s0 : MapReduceIndex)
    (hnew : MapReduceIndex.new store source = some s0)
    (ops : List IndexOp) (s : MapReduceIndex) (h : applyOps w ops s0 = some s) :
    s0._rowCount = 0 ∧ s._rowCount = s.store.rows.length ∧
    ∀ op s', applyOp w s op = some s' →
      s'._rowCount = s'.store.rows.length ∧
      (s'._rowCount = s._rowCount ∨ s'._rowCount = 0 ∨
        ∃ m keys values, op = IndexOp.updateDocInIndex m ∧
          s'._rowCount =
            (w s.store m.document.key m.document.sequence keys values s._rowCount).2.2) := by
  rw [new_without_record store source hstate] at hnew
  cases hnew
  obtain ⟨g1, g2, g3⟩ := applyOps_rowCount w hw ops _ s hstate (by simp [init, hrows])
    (fun _ => hrows) h
  refine ⟨rfl, g2, ?_⟩
  intro op s' hop
  obtain ⟨⟨-, k2, -⟩, hchange⟩ := applyOp_rowCount w hw s s' op g1 g2 g3 hop
  exact ⟨k2, hchange⟩

/-- Instance of C16: on an empty store, `setup`, two updates, a tombstone for the first
document, `setup` with a new map version and one more update. -/
theorem rowCount_equals_stored_rows_witness :
    RowWriter.AdjustsRowCount IndexWriter.update ∧ emptyStore.rows = [] ∧
    emptyStore.state = none ∧
    ∃ s0 s1 s2, MapReduceIndex.new emptyStore twoDocs = some s0 ∧
      applyOps IndexWriter.update
        [IndexOp.setup 1 (some sampleMap) "1",
         IndexOp.updateDocInIndex ⟨sampleDoc "d1" 1 false⟩,
         IndexOp.updateDocInIndex ⟨sampleDoc "d2" 2 false⟩,
         IndexOp.updateDocInIndex ⟨sampleDoc "d1" 3 true⟩] s0 = some s1 ∧
      s1._rowCount = 1 ∧ s1._rowCount = s1.store.rows.length ∧
      applyOps IndexWriter.update
        [IndexOp.setup 1 (some sampleMap) "2",
         IndexOp.updateDocInIndex ⟨sampleDoc "d2" 2 false⟩] s1 = some s2 ∧
      s2._rowCount = 1 ∧ s2._rowCount = s2.store.rows.length := by
  obtain ⟨s0, s1, s2, h0, h1, h2, h3, h4⟩ :
      ∃ s0 s1 s2, MapReduceIndex.new emptyStore twoDocs = some s0 ∧
        applyOps IndexWriter.update
          [IndexOp.setup 1 (some sampleMap) "1",
           IndexOp.updateDocInIndex ⟨sampleDoc "d1" 1 false⟩,
           IndexOp.updateDocInIndex ⟨sampleDoc "d2" 2 false⟩,
           IndexOp.updateDocInIndex ⟨sampleDoc "d1" 3 true⟩] s0 = some s1 ∧
        s1._rowCount = 1 ∧
        applyOps IndexWriter.update
          [IndexOp.setup 1 (some sampleMap) "2",
           IndexOp.updateDocInIndex ⟨sampleDoc "d2" 2 false⟩] s1 = some s2 ∧
        s2._rowCount = 1 :=
    ⟨_, _, _, rfl, rfl, rfl, rfl, rfl⟩
  have hw := IndexWriter.update_adjustsRowCount
  have k1 := (rowCount_equals_stored_rows IndexWriter.update hw emptyStore twoDocs rfl rfl
    s0 h0 _ s1 h1).2.1
  have hboth : applyOps IndexWriter.update
      ([IndexOp.setup 1 (some sampleMap) "1",
        IndexOp.updateDocInIndex ⟨sampleDoc "d1" 1 false⟩,
        IndexOp.updateDocInIndex ⟨sampleDoc "d2" 2 false⟩,
        IndexOp.updateDocInIndex ⟨sampleDoc "d1" 3 true⟩,
        IndexOp.setup 1 (some sampleMap) "2",
        IndexOp.updateDocInIndex ⟨sampleDoc "d2" 2 false⟩]) s0 = some s2 := by
    cases h0
    cases h1
    exact h3
  have k2 := (rowCount_equals_stored_rows IndexWriter.update hw emptyStore twoDocs rfl rfl
    s0 h0 _ s2 hboth).2.1
  exact ⟨hw, rfl, rfl, s0, s1, s2, h0, h1, h2, k1, h3, h4, k2⟩

end MapReduceIndex

end forestdb

namespace forestdb

/-! ## The coordinator: aborted runs, finalization and the sequences reached -/

/-- After `readState` the cache is fresh. -/
theorem readState_stateReadAt (s s1 : MapReduceIndex) (h : s.readState = some s1) :
    s1._stateReadAt = s1.store.lastSequence := by
  by_cases hfresh : s._stateReadAt = s.store.lastSequence
  · rw [MapReduceIndex.readState_fresh s hfresh] at h
    cases h
    exact hfresh
  · have hst := (MapReduceIndex.readState_frame s s1 h).1
    unfold MapReduceIndex.readState at h
    simp only [hfresh, ne_eq, not_false_eq_true, if_true, bind, Option.bind_eq_some] at h
    obtain ⟨s0, -, h⟩ := h
    cases h
    simp only at hst ⊢
    rw [hst]

/-- Calling `readState` twice is the same as calling it once. -/
theorem readState_idem (s s1 : MapReduceIndex) (h : s.readState = some s1) :
    s1.readState = some s1 :=
  MapReduceIndex.readState_fresh s1 (readState_stateReadAt s s1 h)

/-- An index object that a coordinator has at most asked for its `lastSequenceIndexed()` has
the same store and call log, and its accessors return what they returned before. -/
theorem refreshed_same (idx idx' : MapReduceIndex)
    (h : idx' = idx ∨ idx.readState = some idx') :
    idx'.store = idx.store ∧ idx'.calls = idx.calls ∧
      idx'.lastSequenceIndexed = idx.lastSequenceIndexed ∧
      idx'.lastSequenceChangedAt = idx.lastSequenceChangedAt ∧
      idx'.rowCount = idx.rowCount ∧ (idx.readState = some idx → idx' = idx) := by
  rcases h with rfl | h
  · exact ⟨rfl, rfl, rfl, rfl, rfl, fun _ => rfl⟩
  · obtain ⟨hst, hcalls, -⟩ := MapReduceIndex.readState_frame idx idx' h
    have hidem := readState_idem idx idx' h
    refine ⟨hst, hcalls, ?_, ?_, ?_, ?_⟩
    · simp [MapReduceIndex.lastSequenceIndexed, h, hidem]
    · simp [MapReduceIndex.lastSequenceChangedAt, h, hidem]
    · simp [MapReduceIndex.rowCount, h, hidem]
    · intro hsame
      rw [hsame] at h
      cases h
      rfl

/-- A position-wise relation that holds between every element and itself. -/
theorem forall₂_self {α : Type} (R : α → α → Prop) (h : ∀ a, R a a) :
    ∀ l : List α, List.Forall₂ R l l
  | [] => List.Forall₂.nil
  | a :: l => List.Forall₂.cons (h a) (forall₂_self R h l)

/-- Weakening a position-wise relation. -/
theorem forall₂_weaken {α β : Type} {R S : α → β → Prop} (h : ∀ a b, R a b → S a b) :
    ∀ {as : List α} {bs : List β}, List.Forall₂ R as bs → List.Forall₂ S as bs := by
  intro as bs hR
  induction hR with
  | nil => exact List.Forall₂.nil
  | cons hab _ ih => exact List.Forall₂.cons (h _ _ hab) ih

/-- The per-document updates of one index leave `lastSequenceIndexed` at the highest of its
old value and the documents' sequences. -/
theorem updateDocs_last (w : RowWriter) (docs : List Document) :
    ∀ (idx idx' : MapReduceIndex), updateDocs w docs idx = some idx' →
      idx'._lastSequenceIndexed = maxSequence docs idx._lastSequenceIndexed := by
  induction docs with
  | nil =>
    intro idx idx' h
    simp only [updateDocs] at h
    cases h
    rfl
  | cons d ds ih =>
    intro idx idx' h
    simp only [updateDocs] at h
    cases hstep : idx.updateDocInIndex w { document := d } with
    | none => simp [hstep] at h
    | some p =>
      obtain ⟨r, idx1⟩ := p
      simp only [hstep] at h
      rw [ih idx1 idx' h]
      simp only [maxSequence, List.foldl_cons]
      rcases updateDocInIndex_cases w idx idx1 _ r hstep with ⟨hle, heq⟩ | ⟨hlt, hlast, -, -⟩
      · subst heq
        have hle' : d.sequence ≤ idx1._lastSequenceIndexed := hle
        rw [Nat.max_eq_left hle']
      · have hlt' : idx._lastSequenceIndexed < d.sequence := hlt
        have hlast' : idx1._lastSequenceIndexed = d.sequence := hlast
        rw [hlast', Nat.max_eq_right (Nat.le_of_lt hlt')]

/-- The highest sequence is at least the starting value. -/
theorem le_maxSequence (docs : List Document) : ∀ start, start ≤ maxSequence docs start := by
  induction docs with
  | nil => intro start; exact Nat.le_refl _
  | cons d ds ih =>
    intro start
    simp only [maxSequence, List.foldl_cons]
    exact Nat.le_trans (Nat.le_max_left _ _) (ih _)

/-- The highest sequence is at least every document's sequence. -/
theorem sequence_le_maxSequence (docs : List Document) :
    ∀ start, ∀ d ∈ docs, d.sequence ≤ maxSequence docs start := by
  induction docs with
  | nil => intro start d hd; cases hd
  | cons d0 ds ih =>
    intro start d hd
    simp only [maxSequence, List.foldl_cons]
    rcases List.mem_cons.mp hd with rfl | hd
    · exact Nat.le_trans (Nat.le_max_right _ _) (le_maxSequence ds _)
    · exact ih _ d hd

/-- The highest sequence stays below any bound on the start and on the documents. -/
theorem maxSequence_le (docs : List Document) (bound : Nat) :
    ∀ start, start ≤ bound → (∀ d ∈ docs, d.sequence ≤ bound) →
      maxSequence docs start ≤ bound := by
  induction docs with
  | nil => intro start hs _; exact hs
  | cons d0 ds ih =>
    intro start hs hd
    simp only [maxSequence, List.foldl_cons]
    exact ih _ (Nat.max_le.mpr ⟨hs, hd d0 (List.mem_cons_self _ _)⟩)
      fun d h => hd d (List.mem_cons_of_mem _ h)

end forestdb

namespace forestdb

namespace MapReduceIndexer

/-- Whatever the first loop of `run` returns, each index object is either untouched or the
result of its own `readState`. -/
theorem findStartSequence_frame (latest : Nat) (trigger : Option Nat) :
    ∀ (idxs : List MapReduceIndex) (i start : Nat) (acc : List Nat) (r : StartScan),
      findStartSequence latest trigger i idxs start acc = some r →
      List.Forall₂ (fun idx idx' => idx' = idx ∨ idx.readState = some idx') idxs r.indexes := by
  intro idxs
  induction idxs with
  | nil =>
    intro i start acc r h
    simp only [findStartSequence] at h
    cases h
    exact List.Forall₂.nil
  | cons idx rest ih =>
    intro i start acc r h
    simp only [findStartSequence] at h
    cases hread : idx.lastSequenceIndexed with
    | none => simp [hread] at h
    | some p =>
      obtain ⟨s, idx0⟩ := p
      simp only [hread] at h
      have hrs : idx.readState = some idx0 := by
        simp only [MapReduceIndex.lastSequenceIndexed, Option.map_eq_some'] at hread
        obtain ⟨s1, hs1, hp⟩ := hread
        cases hp
        exact hs1
      by_cases hlt : s < latest
      · simp only [hlt, if_true, Option.map_eq_some'] at h
        obtain ⟨r0, hr0, hr⟩ := h
        subst hr
        exact List.Forall₂.cons (Or.inr hrs) (ih _ _ _ r0 hr0)
      · simp only [hlt, if_false] at h
        by_cases htrig : trigger = some i
        · simp only [htrig, if_true] at h
          cases h
          exact List.Forall₂.cons (Or.inr hrs)
            (forall₂_self (fun idx idx' => idx' = idx ∨ idx.readState = some idx')
              (fun _ => Or.inl rfl) rest)
        · simp only [htrig, if_false, Option.map_eq_some'] at h
          obtain ⟨r0, hr0, hr⟩ := h
          subst hr
          exact List.Forall₂.cons (Or.inr hrs) (ih _ _ _ r0 hr0)

/-- When every index is caught up, the first loop of `run` leaves the start sequence alone. -/
theorem findStartSequence_caught_up (latest : Nat) (trigger : Option Nat) :
    ∀ (idxs : List MapReduceIndex) (ps : List (Nat × MapReduceIndex)),
      List.Forall₂ (fun idx p => idx.lastSequenceIndexed = some p) idxs ps →
      (∀ p ∈ ps, latest ≤ p.1) →
      ∀ (i start : Nat) (acc : List Nat),
        ∃ r, findStartSequence latest trigger i idxs start acc = some r ∧
          r.startSequence = start := by
  intro idxs ps h
  induction h with
  | nil => intro _ i start acc; exact ⟨_, rfl, rfl⟩
  | @cons idx p rest ps hread _ ih =>
    intro hall i start acc
    obtain ⟨s, idx0⟩ := p
    have hs : ¬ s < latest := Nat.not_lt.mpr (hall (s, idx0) (List.mem_cons_self _ _))
    have htail : ∀ p ∈ ps, latest ≤ p.1 := fun p hp => hall p (List.mem_cons_of_mem _ hp)
    simp only [findStartSequence, hread, hs, if_false]
    by_cases htrig : trigger = some i
    · simp only [htrig, if_true]
      exact ⟨_, rfl, rfl⟩
    · simp only [htrig, if_false]
      obtain ⟨r0, hr0, hstart⟩ := ih htail (i + 1) start (acc ++ [s])
      rw [hr0]
      exact ⟨_, rfl, hstart⟩

/-- When the trigger index is caught up, the first loop of `run` hits its `return false`. -/
theorem findStartSequence_abort (latest : Nat) :
    ∀ (idxs : List MapReduceIndex) (ps : List (Nat × MapReduceIndex)),
      List.Forall₂ (fun idx p => idx.lastSequenceIndexed = some p) idxs ps →
      ∀ (k i start : Nat) (acc : List Nat) (p : Nat × MapReduceIndex),
        ps[k]? = some p → latest ≤ p.1 →
        ∃ r, findStartSequence latest (some (i + k)) i idxs start acc = some r ∧
          r.aborted = true := by
  intro idxs ps h
  induction h with
  | nil => intro k i start acc p hp _; simp at hp
  | @cons idx p0 rest ps hread _ ih =>
    intro k i start acc p hp hle
    obtain ⟨s, idx0⟩ := p0
    simp only [findStartSequence, hread]
    cases k with
    | zero =>
      simp only [List.getElem?_cons_zero, Option.some.injEq] at hp
      subst hp
      have hs : ¬ s < latest := Nat.not_lt.mpr hle
      simp only [hs, if_false, Nat.add_zero, if_true]
      exact ⟨_, rfl, rfl⟩
    | succ k =>
      simp only [List.getElem?_cons_succ] at hp
      have hne : (some (i + (k + 1)) : Option Nat) ≠ some i := by
        intro hc
        have := Option.some.inj hc
        omega
      have hidx : i + (k + 1) = i + 1 + k := by omega
      by_cases hlt : s < latest
      · simp only [hlt, if_true]
        obtain ⟨r0, hr0, hab⟩ := ih k (i + 1) (min start (wrap64 (s + 1))) (acc ++ [s]) p hp hle
        rw [hidx, hr0]
        exact ⟨_, rfl, hab⟩
      · simp only [hlt, if_false, hne]
        obtain ⟨r0, hr0, hab⟩ := ih k (i + 1) start (acc ++ [s]) p hp hle
        rw [hidx, hr0]
        exact ⟨_, rfl, hab⟩

/-- The ways `run` can return: false straight after the first loop, or true after the scan. -/
theorem run_cases (w : RowWriter) (ix ix' : MapReduceIndexer) (first : MapReduceIndex)
    (rest : List MapReduceIndex) (hix : ix._indexes = first :: rest) (b : Bool)
    (hrun : run w ix = some (b, ix')) :
    ∃ scan, findStartSequence first._sourceDatabase.lastSequence ix._triggerIndex 0 ix._indexes
        (wrap64 (first._sourceDatabase.lastSequence + 1)) ix._lastSequences = some scan ∧
      ((b = false ∧
          (scan.aborted = true ∨ scan.startSequence > first._sourceDatabase.lastSequence) ∧
          ix' = { ix with _indexes := scan.indexes, _lastSequences := scan.lastSequences }) ∨
       (b = true ∧ scan.aborted = false ∧
          ∃ mid, addDocuments w
            (DocEnumerator.enumerate first._sourceDatabase scan.startSequence UINT64_MAX
              { DocEnumerator.Options.kDefault with includeDeleted := true })
            { ix with _indexes := scan.indexes, _lastSequences := scan.lastSequences } =
              some mid ∧
            ix' = { mid with _finished := true })) := by
  unfold run at hrun
  rw [hix] at hrun
  simp only [MapReduceIndex.sourceStore] at hrun
  rw [← hix] at hrun
  split at hrun
  · cases hrun
  · next scan hscan =>
    refine ⟨scan, hscan, ?_⟩
    cases hab : scan.aborted with
    | true =>
      simp only [hab, if_true, Option.some.injEq, Prod.mk.injEq] at hrun
      exact Or.inl ⟨hrun.1.symm, Or.inl rfl, hrun.2.symm⟩
    | false =>
      simp only [hab, Bool.false_eq_true, if_false] at hrun
      by_cases hgt : scan.startSequence > first._sourceDatabase.lastSequence
      · simp only [hgt, if_true, Option.some.injEq, Prod.mk.injEq] at hrun
        exact Or.inl ⟨hrun.1.symm, Or.inr hgt, hrun.2.symm⟩
      · simp only [hgt, if_false] at hrun
        split at hrun
        · cases hrun
        · next mid hmid =>
          simp only [Option.some.injEq, Prod.mk.injEq] at hrun
          exact Or.inr ⟨hrun.1.symm, rfl, mid, hmid, hrun.2.symm⟩

/-- A run returns false, with the coordinator's log and flag untouched, as soon as the first
loop hits the trigger's `return false` or ends with a start sequence past the last one. -/
theorem run_false_of_scan (w : RowWriter) (ix : MapReduceIndexer) (first : MapReduceIndex)
    (rest : List MapReduceIndex) (hix : ix._indexes = first :: rest) (scan : StartScan)
    (hscan : findStartSequence first._sourceDatabase.lastSequence ix._triggerIndex 0
      ix._indexes (wrap64 (first._sourceDatabase.lastSequence + 1)) ix._lastSequences =
        some scan)
    (hstop : scan.aborted = true ∨ scan.startSequence > first._sourceDatabase.lastSequence) :
    run w ix = some (false,
      { ix with _indexes := scan.indexes, _lastSequences := scan.lastSequences }) := by
  unfold run
  rw [hix]
  simp only [MapReduceIndex.sourceStore]
  rw [← hix, hscan]
  cases hab : scan.aborted with
  | true => simp [hab]
  | false =>
    rcases hstop with h | h
    · rw [hab] at h; cases h
    · simp [hab, h]

end MapReduceIndexer

end forestdb

namespace forestdb

namespace MapReduceIndexer

/-- Finalizing a coordinator whose `_finished` flag is not set changes nothing. -/
theorem finalize_unfinished (ix : MapReduceIndexer) (h : ix._finished = false) :
    finalize ix = ix := by
  simp [finalize, h]

/-- The index objects after a run that returned false: same stores, same call logs, same
accessor results. -/
theorem scan_indexes_same (latest : Nat) (trigger : Option Nat) (idxs : List MapReduceIndex)
    (i start : Nat) (acc : List Nat) (r : StartScan)
    (h : findStartSequence latest trigger i idxs start acc = some r) :
    List.Forall₂
      (fun idx idx' => idx'.store = idx.store ∧ idx'.calls = idx.calls ∧
        idx'.lastSequenceIndexed = idx.lastSequenceIndexed ∧
        idx'.lastSequenceChangedAt = idx.lastSequenceChangedAt ∧
        idx'.rowCount = idx.rowCount ∧ (idx.readState = some idx → idx' = idx))
      idxs r.indexes :=
  forall₂_weaken (fun idx idx' hfr => refreshed_same idx idx' hfr)
    (findStartSequence_frame latest trigger idxs i start acc r h)

/-- Claim C11: with a trigger index designated among the managed indexes, all of which can be
read.  If the trigger's `lastSequenceIndexed()` is at or past the store's last sequence, `run`
returns false, no document is passed to `addDocument`, no index makes any call on the map
or the row writer, and finalizing the coordinator saves nothing, whatever the other indexes
need.  If the trigger is behind, the first loop does not hit the trigger's `return false`,
and with every map set the run goes on to the scan and returns true. -/
theorem run_respects_trigger (w : RowWriter) (ix : MapReduceIndexer)
    (first : MapReduceIndex) (rest : List MapReduceIndex) (hix : ix._indexes = first :: rest)
    (ps : List (Nat × MapReduceIndex))
    (hread : List.Forall₂ (fun idx p => idx.lastSequenceIndexed = some p) ix._indexes ps)
    (t : Nat) (p : Nat × MapReduceIndex) (htrig : ix._triggerIndex = some t)
    (hp : ps[t]? = some p) :
    (first._sourceDatabase.lastSequence ≤ p.1 →
      ∃ ix', run w ix = some (false, ix') ∧ ix'.added = ix.added ∧
        ix'._finished = ix._finished ∧ (ix._finished = false → finalize ix' = ix') ∧
        List.Forall₂ (fun idx idx' => idx'.store = idx.store ∧ idx'.calls = idx.calls)
          ix._indexes ix'._indexes) ∧
    (p.1 < first._sourceDatabase.lastSequence →
      (∃ scan, findStartSequence first._sourceDatabase.lastSequence ix._triggerIndex 0
          ix._indexes (wrap64 (first._sourceDatabase.lastSequence + 1)) ix._lastSequences =
            some scan ∧ scan.aborted = false) ∧
      (first._sourceDatabase.lastSequence < 2 ^ 64 →
        (∀ idx ∈ ix._indexes, idx._map.isSome = true) →
        ∃ ix', run w ix = some (true, ix') ∧ ix'._finished = true)) := by
  constructor
  · intro hle
    obtain ⟨scan, hscan, hab⟩ := findStartSequence_abort first._sourceDatabase.lastSequence
      ix._indexes ps hread t 0 (wrap64 (first._sourceDatabase.lastSequence + 1))
      ix._lastSequences p hp hle
    rw [Nat.zero_add, ← htrig] at hscan
    refine ⟨_, run_false_of_scan w ix first rest hix scan hscan (Or.inl hab), rfl, rfl, ?_, ?_⟩
    · intro hnot
      exact finalize_unfinished _ hnot
    · exact forall₂_weaken (fun idx idx' h => ⟨h.1, h.2.1⟩)
        (scan_indexes_same _ _ _ _ _ _ scan hscan)
  · intro hlt
    have htrigger : ∀ t' p', ix._triggerIndex = some t' → ps[t']? = some p' →
        p'.1 < first._sourceDatabase.lastSequence := by
      intro t' p' ht' hp'
      rw [htrig] at ht'
      cases ht'
      rw [hp] at hp'
      cases hp'
      exact hlt
    have hscan := findStartSequence_complete first._sourceDatabase.lastSequence
      ix._triggerIndex ix._indexes ps hread 0 (wrap64 (first._sourceDatabase.lastSequence + 1))
      ix._lastSequences (by intro j p' hj hp'; exact htrigger j p' (by simpa using hj) hp')
    refine ⟨⟨_, hscan, rfl⟩, ?_⟩
    intro hrange hmaps
    have hmem : p ∈ ps := List.getElem?_mem hp
    have hle := startOf_le first._sourceDatabase.lastSequence (ps.map Prod.fst)
      (wrap64 (first._sourceDatabase.lastSequence + 1)) p.1 (List.mem_map_of_mem _ hmem) hlt
    have hw : wrap64 (p.1 + 1) = p.1 + 1 := wrap64_of_lt _ (by omega)
    rw [hw] at hle
    obtain ⟨mid, -, hrun⟩ := run_complete w ix first rest hix ps hread hmaps htrigger
      (by omega)
    exact ⟨_, hrun, rfl⟩

/-- Instance of C11: over the store with last sequence 10 and indexes caught up to 10 and 5,
the run with the first index as trigger returns false without handing over a document,
although the second index is behind; with the second index as trigger the run returns true. -/
theorem run_respects_trigger_witness :
    triggerCaughtUp._triggerIndex = some 0 ∧ triggerBehind._triggerIndex = some 1 ∧
    tenDocs.lastSequence ≤ 10 ∧ 5 < tenDocs.lastSequence ∧
    (∃ ix', run IndexWriter.update triggerCaughtUp = some (false, ix') ∧
      ix'.added = [] ∧ ix'._finished = false ∧ finalize ix' = ix' ∧
      List.Forall₂ (fun idx idx' => idx'.store = idx.store ∧ idx'.calls = idx.calls)
        triggerCaughtUp._indexes ix'._indexes) ∧
    (∃ ix', run IndexWriter.update triggerBehind = some (true, ix') ∧
      ix'._finished = true) := by
  obtain ⟨ix', h1, h2, h3, h4, h5⟩ :=
    (run_respects_trigger IndexWriter.update triggerCaughtUp (caughtUpTo 10) [caughtUpTo 5] rfl
      [(10, caughtUpTo 10), (5, caughtUpTo 5)]
      (List.Forall₂.cons rfl (List.Forall₂.cons rfl List.Forall₂.nil))
      0 (10, caughtUpTo 10) rfl rfl).1 (by decide)
  have hbehind :=
    ((run_respects_trigger IndexWriter.update triggerBehind (caughtUpTo 10) [caughtUpTo 5] rfl
      [(10, caughtUpTo 10), (5, caughtUpTo 5)]
      (List.Forall₂.cons rfl (List.Forall₂.cons rfl List.Forall₂.nil))
      1 (5, caughtUpTo 5) rfl rfl).2 (by decide)).2 (by decide)
      (by
        intro idx h
        simp only [triggerBehind, twoIndexes, MapReduceIndexer.new, List.mem_cons,
          List.mem_singleton, List.not_mem_nil, or_false] at h
        rcases h with rfl | rfl <;> rfl)
  exact ⟨rfl, rfl, by decide, by decide, ⟨ix', h1, h2, h3, h4 rfl, h5⟩, hbehind⟩

/-- Claim C12: when every managed index can be read and its `lastSequenceIndexed()` is at or
past the source store's last sequence, `run` returns false, passes no document to
`addDocument`, leaves the `_finished` flag alone, and every index comes out with the same
store (rows), the same call log and the same results of `lastSequenceIndexed()`,
`lastSequenceChangedAt()` and `rowCount()`; an index whose cache was fresh is unchanged. -/
theorem run_noop_when_caught_up (w : RowWriter) (ix : MapReduceIndexer)
    (first : MapReduceIndex) (rest : List MapReduceIndex) (hix : ix._indexes = first :: rest)
    (ps : List (Nat × MapReduceIndex))
    (hread : List.Forall₂ (fun idx p => idx.lastSequenceIndexed = some p) ix._indexes ps)
    (hcaught : ∀ p ∈ ps, first._sourceDatabase.lastSequence ≤ p.1)
    (hbound : first._sourceDatabase.lastSequence + 1 < 2 ^ 64) :
    ∃ ix', run w ix = some (false, ix') ∧ ix'.added = ix.added ∧
      ix'._finished = ix._finished ∧
      List.Forall₂
        (fun idx idx' => idx'.store = idx.store ∧ idx'.calls = idx.calls ∧
          idx'.lastSequenceIndexed = idx.lastSequenceIndexed ∧
          idx'.lastSequenceChangedAt = idx.lastSequenceChangedAt ∧
          idx'.rowCount = idx.rowCount ∧ (idx.readState = some idx → idx' = idx))
        ix._indexes ix'._indexes := by
  obtain ⟨scan, hscan, hstart⟩ := findStartSequence_caught_up
    first._sourceDatabase.lastSequence ix._triggerIndex ix._indexes ps hread hcaught 0
    (wrap64 (first._sourceDatabase.lastSequence + 1)) ix._lastSequences
  have hgt : scan.startSequence > first._sourceDatabase.lastSequence := by
    rw [hstart, wrap64_of_lt _ hbound]
    exact Nat.lt_succ_self _
  exact ⟨_, run_false_of_scan w ix first rest hix scan hscan (Or.inr hgt), rfl, rfl,
    scan_indexes_same _ _ _ _ _ _ scan hscan⟩

/-- Instance of C12: a second run directly after the successful run over the indexes caught
up to 10 and 5, with no new source document.  It returns false, hands over nothing, and the
two indexes keep `lastSequenceIndexed` 10, their `lastSequenceChangedAt`, their row counts
0 and 4 and their rows. -/
theorem run_noop_when_caught_up_witness :
    ∃ ix1 ix2, run IndexWriter.update twoIndexes = some (true, ix1) ∧
      run IndexWriter.update ix1 = some (false, ix2) ∧ ix2.added = ix1.added ∧
      List.Forall₂
        (fun idx idx' => idx'.store = idx.store ∧ idx'.calls = idx.calls ∧
          idx'.lastSequenceIndexed = idx.lastSequenceIndexed ∧
          idx'.lastSequenceChangedAt = idx.lastSequenceChangedAt ∧
          idx'.rowCount = idx.rowCount ∧ (idx.readState = some idx → idx' = idx))
        ix1._indexes ix2._indexes ∧
      ix1._indexes.map (fun idx =>
          (idx._lastSequenceIndexed, idx._lastSequenceChangedAt, idx._rowCount,
            idx.store.rows.length)) = [(10, 10, 0, 0), (10, 10, 4, 4)] ∧
      ix2._indexes.map (fun idx =>
          (idx._lastSequenceIndexed, idx._lastSequenceChangedAt, idx._rowCount,
            idx.store.rows.length)) = [(10, 10, 0, 0), (10, 10, 4, 4)] := by
  obtain ⟨ix1, ix2c, a, b, pa, pb, hrun1, hrun2c, hix, hra, hrb, hca, hcb, hsrc, hv1, hv2⟩ :
      ∃ ix1 ix2c a b pa pb, run IndexWriter.update twoIndexes = some (true, ix1) ∧
        run IndexWriter.update ix1 = some (false, ix2c) ∧
        ix1._indexes = [a, b] ∧ a.lastSequenceIndexed = some pa ∧
        b.lastSequenceIndexed = some pb ∧ 10 ≤ pa.1 ∧ 10 ≤ pb.1 ∧
        a._sourceDatabase = tenDocs ∧
        ix1._indexes.map (fun idx =>
          (idx._lastSequenceIndexed, idx._lastSequenceChangedAt, idx._rowCount,
            idx.store.rows.length)) = [(10, 10, 0, 0), (10, 10, 4, 4)] ∧
        ix2c._indexes.map (fun idx =>
          (idx._lastSequenceIndexed, idx._lastSequenceChangedAt, idx._rowCount,
            idx.store.rows.length)) = [(10, 10, 0, 0), (10, 10, 4, 4)] :=
    ⟨_, _, _, _, _, _, rfl, rfl, rfl, rfl, rfl, by decide, by decide, rfl, rfl, rfl⟩
  have hlatest : a._sourceDatabase.lastSequence = 10 := by rw [hsrc]; rfl
  obtain ⟨ix2, hrun2, hadded, -, hsame⟩ :=
    run_noop_when_caught_up IndexWriter.update ix1 a [b] hix [pa, pb]
      (by rw [hix]; exact List.Forall₂.cons hra (List.Forall₂.cons hrb List.Forall₂.nil))
      (by
        intro p hp
        rw [hlatest]
        rcases List.mem_cons.mp hp with rfl | hp
        · exact hca
        · rcases List.mem_cons.mp hp with rfl | hp
          · exact hcb
          · cases hp)
      (by rw [hlatest]; decide)
  have heq : ix2c = ix2 := by
    rw [hrun2] at hrun2c
    cases hrun2c
    rfl
  subst heq
  exact ⟨ix1, ix2c, hrun1, hrun2, hadded, hsame, hv1, hv2⟩

end MapReduceIndexer

end forestdb

namespace forestdb

/-- What `saveState` does: it writes the six values under the reserved key, once, keeps the
counters, and leaves the cache fresh. -/
theorem saveState_effect (s : MapReduceIndex) :
    s.saveState.calls = s.calls ++ [Call.set (savedRecord s)] ∧
    s.saveState.store.state = some (savedRecord s) ∧
    s.saveState.store.rows = s.store.rows ∧
    s.saveState._lastSequenceIndexed = s._lastSequenceIndexed ∧
    s.saveState._stateReadAt = s.saveState.store.lastSequence := by
  simp [MapReduceIndex.saveState, KeyStore.setState, savedRecord, Collatable.addInt,
    Collatable.addString]

namespace MapReduceIndexer

end MapReduceIndexer

end forestdb

namespace forestdb

namespace MapReduceIndexer

/-- After a run that returned true, every index is the result of the per-document updates,
over the enumerated documents, of what its `lastSequenceIndexed()` accessor left. -/
theorem run_true_indexes (w : RowWriter) (ix ix' : MapReduceIndexer) (first : MapReduceIndex)
    (rest : List MapReduceIndex) (hix : ix._indexes = first :: rest)
    (hrun : run w ix = some (true, ix')) :
    ∃ start, start ≤ first._sourceDatabase.lastSequence ∧
      List.Forall₂
        (fun idx idx' => ∃ p, idx.lastSequenceIndexed = some p ∧
          updateDocs w
            (DocEnumerator.enumerate first._sourceDatabase start UINT64_MAX
              { DocEnumerator.Options.kDefault with includeDeleted := true }) p.2 = some idx')
        ix._indexes ix'._indexes := by
  obtain ⟨ps, mid, hps, hstart, hmid, hix'⟩ := run_true w ix ix' first rest hix hrun
  obtain ⟨-, hidx, -⟩ := addDocuments_spec w _ _ _ hmid
  subst hix'
  refine ⟨_, hstart, forall₂_chain hps (List.forall₂_map_left_iff.mp hidx) ?_⟩
  intro a p c _ ha hc
  exact ⟨p, ha, hc⟩

/-- Every enumerated document is a document of the store. -/
theorem mem_of_mem_enumerate (store : SourceStore) (min max : Nat)
    (options : DocEnumerator.Options) (d : Document)
    (h : d ∈ DocEnumerator.enumerate store min max options) : d ∈ store.docs :=
  (List.mem_filter.mp h).1

/-- Claim C14: after a run that returns true over a source store whose documents all have
sequences at most `lastSequence`, one of them equal to it, every managed index whose
`lastSequenceIndexed()` did not already exceed `lastSequence` has `lastSequenceIndexed`
equal to `lastSequence`; and once the coordinator is finalized, the accessor
`lastSequenceIndexed()` of every index returns `lastSequence`. -/
theorem run_catches_up_every_index (w : RowWriter) (ix ix' : MapReduceIndexer)
    (first : MapReduceIndex) (rest : List MapReduceIndex) (hix : ix._indexes = first :: rest)
    (hlast : ∀ d ∈ first._sourceDatabase.docs,
      d.sequence ≤ first._sourceDatabase.lastSequence)
    (hend : ∃ d ∈ first._sourceDatabase.docs,
      d.sequence = first._sourceDatabase.lastSequence)
    (hrange : first._sourceDatabase.lastSequence < 2 ^ 64)
    (hinv : ∀ idx ∈ ix._indexes, ∀ p, idx.lastSequenceIndexed = some p →
      p.1 ≤ first._sourceDatabase.lastSequence)
    (hrun : run w ix = some (true, ix')) :
    (∀ idx' ∈ ix'._indexes,
      idx'._lastSequenceIndexed = first._sourceDatabase.lastSequence) ∧
    (∀ idx ∈ (finalize ix')._indexes,
      idx.lastSequenceIndexed = some (first._sourceDatabase.lastSequence, idx)) := by
  obtain ⟨start, hstart, hall⟩ := run_true_indexes w ix ix' first rest hix hrun
  have hfield : ∀ idx' ∈ ix'._indexes,
      idx'._lastSequenceIndexed = first._sourceDatabase.lastSequence := by
    intro idx' hmem
    obtain ⟨idx, hidx, p, hp, hupd⟩ := forall₂_mem_right hall hmem
    have hp1 := (lastSequenceIndexed_frame idx p hp).1
    rw [updateDocs_last w _ p.2 idx' hupd, hp1]
    apply Nat.le_antisymm
    · apply maxSequence_le _ _ _ (hinv idx hidx p hp)
      intro d hd
      exact hlast d (mem_of_mem_enumerate _ _ _ _ d hd)
    · obtain ⟨d, hd, hseq⟩ := hend
      rw [← hseq]
      apply sequence_le_maxSequence
      unfold DocEnumerator.enumerate
      refine List.mem_filter.mpr ⟨hd, ?_⟩
      have h2 : d.sequence ≤ UINT64_MAX := by
        have : UINT64_MAX = 2 ^ 64 - 1 := rfl
        omega
      have h1 : start ≤ d.sequence := by omega
      simp [h1, h2]
  refine ⟨hfield, ?_⟩
  have hfin : ix'._finished = true := by
    obtain ⟨ps, mid, -, -, -, hix'⟩ := run_true w ix ix' first rest hix hrun
    rw [hix']
  intro idx hmem
  simp only [finalize, hfin, if_true, List.mem_map] at hmem
  obtain ⟨idx0, hidx0, rfl⟩ := hmem
  obtain ⟨-, -, -, hl, hfresh⟩ := saveState_effect idx0
  simp [MapReduceIndex.lastSequenceIndexed, MapReduceIndex.readState_fresh _ hfresh, hl,
    hfield idx0 hidx0]

/-- Instance of C14: the end-to-end store `d1` at sequence 1, `d2` at sequence 2 and one
empty index: after the run `lastSequenceIndexed` is 2, the row count is 2 and the rows are
("a", d1, 1) and ("b", d2, 2). -/
theorem run_catches_up_every_index_witness :
    ∃ ix', run IndexWriter.update oneIndex = some (true, ix') ∧
      (∀ idx' ∈ ix'._indexes, idx'._lastSequenceIndexed = 2) ∧
      (∀ idx ∈ (finalize ix')._indexes, idx.lastSequenceIndexed = some (2, idx)) ∧
      ix'._indexes.map (fun idx => (idx._lastSequenceIndexed, idx._rowCount, idx.store.rows)) =
        [(2, 2, [Row.mk [Item.str "a"] "d1" 1 [Item.num 1],
                 Row.mk [Item.str "b"] "d2" 2 [Item.num 2]])] := by
  obtain ⟨ix', hrun, hrows⟩ :
      ∃ ix', run IndexWriter.update oneIndex = some (true, ix') ∧
        ix'._indexes.map (fun idx =>
          (idx._lastSequenceIndexed, idx._rowCount, idx.store.rows)) =
        [(2, 2, [Row.mk [Item.str "a"] "d1" 1 [Item.num 1],
                 Row.mk [Item.str "b"] "d2" 2 [Item.num 2]])] := ⟨_, rfl, rfl⟩
  have h := run_catches_up_every_index IndexWriter.update oneIndex ix' emptyIndex [] rfl
    (by simp [emptyIndex, MapReduceIndex.init, twoDocs])
    ⟨{ key := "d2", sequence := 2, deleted := false, body := "b" },
      by simp [emptyIndex, MapReduceIndex.init, twoDocs], rfl⟩
    (by decide)
    (by
      intro idx hidx p hp
      simp only [oneIndex, MapReduceIndexer.new, List.mem_singleton] at hidx
      subst hidx
      have hp' : emptyIndex.lastSequenceIndexed = some (0, emptyIndex) := rfl
      rw [hp'] at hp
      cases hp
      exact Nat.zero_le _)
    hrun
  exact ⟨ix', hrun, h.1, h.2, hrows⟩

/-- Claim C15: a single `updateDocInIndex` call never lowers `lastSequenceIndexed`; and for
every run, whatever it returns, over a store whose documents have sequences at most
`lastSequence`, every managed index is either left exactly as it was or ends with a
`lastSequenceIndexed` at least the value `s` its `lastSequenceIndexed()` accessor returned to
the run, and at most `lastSequence` provided `s` did not exceed `lastSequence`. -/
theorem lastSequenceIndexed_monotone (w : RowWriter) :
    (∀ s m r s', MapReduceIndex.updateDocInIndex w s m = some (r, s') →
      s._lastSequenceIndexed ≤ s'._lastSequenceIndexed) ∧
    (∀ ix ix' first rest b, ix._indexes = first :: rest →
      (∀ d ∈ first._sourceDatabase.docs, d.sequence ≤ first._sourceDatabase.lastSequence) →
      run w ix = some (b, ix') →
      List.Forall₂
        (fun idx idx' => idx' = idx ∨
          ∃ s idx0, idx.lastSequenceIndexed = some (s, idx0) ∧
            s ≤ idx'._lastSequenceIndexed ∧
            (s ≤ first._sourceDatabase.lastSequence →
              idx'._lastSequenceIndexed ≤ first._sourceDatabase.lastSequence))
        ix._indexes ix'._indexes) := by
  constructor
  · intro s m r s' h
    rcases updateDocInIndex_cases w s s' m r h with ⟨-, heq⟩ | ⟨hlt, hlast, -, -⟩
    · rw [heq]
    · omega
  · intro ix ix' first rest b hix hlast hrun
    cases b with
    | false =>
      obtain ⟨scan, hscan, h⟩ := run_cases w ix ix' first rest hix false hrun
      rcases h with ⟨-, -, hix'⟩ | ⟨hb, -⟩
      · rw [hix']
        refine forall₂_weaken ?_ (findStartSequence_frame _ _ _ _ _ _ scan hscan)
        intro idx idx' hfr
        rcases hfr with heq | hrs
        · exact Or.inl heq
        · refine Or.inr ⟨idx'._lastSequenceIndexed, idx', ?_, Nat.le_refl _, fun h => h⟩
          simp [MapReduceIndex.lastSequenceIndexed, hrs]
      · cases hb
    | true =>
      obtain ⟨start, -, hall⟩ := run_true_indexes w ix ix' first rest hix hrun
      refine forall₂_weaken ?_ hall
      intro idx idx' hp
      obtain ⟨p, hp, hupd⟩ := hp
      have hp1 := (lastSequenceIndexed_frame idx p hp).1
      have hl := updateDocs_last w _ p.2 idx' hupd
      rw [hp1] at hl
      refine Or.inr ⟨p.1, p.2, hp, ?_, ?_⟩
      · rw [hl]
        exact le_maxSequence _ _
      · intro hs
        rw [hl]
        apply maxSequence_le _ _ _ hs
        intro d hd
        exact hlast d (mem_of_mem_enumerate _ _ _ _ d hd)

/-- Instance of C15: the run over the indexes caught up to 10 and 5 (last sequence 10), and
one update of the sample index (caught up to 5) with a document at sequence 7. -/
theorem lastSequenceIndexed_monotone_witness :
    (∃ r s', MapReduceIndex.updateDocInIndex IndexWriter.update sampleIndex
        ⟨sampleDoc "d" 7 false⟩ = some (r, s') ∧
      sampleIndex._lastSequenceIndexed ≤ s'._lastSequenceIndexed) ∧
    (∀ d ∈ tenDocs.docs, d.sequence ≤ tenDocs.lastSequence) ∧
    ∃ ix', run IndexWriter.update twoIndexes = some (true, ix') ∧
      List.Forall₂
        (fun idx idx' => idx' = idx ∨
          ∃ s idx0, idx.lastSequenceIndexed = some (s, idx0) ∧
            s ≤ idx'._lastSequenceIndexed ∧
            (s ≤ tenDocs.lastSequence → idx'._lastSequenceIndexed ≤ tenDocs.lastSequence))
        twoIndexes._indexes ix'._indexes := by
  obtain ⟨hupd, hrun⟩ := lastSequenceIndexed_monotone IndexWriter.update
  obtain ⟨r, s', hu⟩ : ∃ r s', MapReduceIndex.updateDocInIndex IndexWriter.update sampleIndex
      ⟨sampleDoc "d" 7 false⟩ = some (r, s') := ⟨_, _, rfl⟩
  obtain ⟨ix', hr⟩ : ∃ ix', run IndexWriter.update twoIndexes = some (true, ix') := ⟨_, rfl⟩
  have hlast : ∀ d ∈ tenDocs.docs, d.sequence ≤ tenDocs.lastSequence := by
    simp [tenDocs, sampleDoc]
  exact ⟨⟨r, s', hu, hupd _ _ r s' hu⟩, hlast,
    ⟨ix', hr, hrun twoIndexes ix' (caughtUpTo 10) [caughtUpTo 5] true rfl hlast hr⟩⟩

end MapReduceIndexer

end forestdb
